import Mathlib

/-!
Verification of the pickpack tree-selection widget.

This development shallowly embeds the core of the pickpack library
(src/pickpack/anytree_utils.py and src/pickpack/__init__.py): the tree
model, the pre-order indexing pass, the selection engine (cursor moves,
cascading multiselect, output shaping) and the construction-time
validation, and proves the specification claims about them.

Modelling conventions:
- anytree Node objects become the inductive type INode carrying the
  name, the stamped integer index and the ordered children list.
- The mutable all_selected Python list becomes an explicit List Nat
  threaded through the operations; Python list.remove is List.erase
  (both remove the first occurrence), the try/except ValueError around
  remove becomes a membership test.
- Parent back-references become the explicit list of ancestor nodes
  (nearest first) computed from the root, which is exactly the sequence
  of node.parent values the Python while-loops traverse.
- Python ints that can go negative (the cursor, default_index) are Int;
  stamped indices are Nat (the indexing pass only produces 0..N-1).
-/

namespace Pickpack

/-- A bare tree shape as handed to the picker (anytree nodes before the
indexing pass): a name and an ordered list of children. -/
inductive Tree where
  | node : String → List Tree → Tree

/-- An anytree node after the indexing pass: name, stamped index, ordered
children (the index attribute added by add_indices). -/
inductive INode where
  | node : String → Nat → List INode → INode

def INode.name : INode → String
  | .node nm _ _ => nm

def INode.index : INode → Nat
  | .node _ i _ => i

def INode.children : INode → List INode
  | .node _ _ cs => cs

mutual
/-- count_nodes from anytree_utils.py: number of nodes in the subtree. -/
def count_nodes : INode → Nat
  | .node _ _ cs => count_nodesList cs + 1
def count_nodesList : List INode → Nat
  | [] => 0
  | c :: cs => count_nodes c + count_nodesList cs
end

mutual
/-- Node count of a bare tree shape (count_nodes applied before indexing). -/
def Tree.count : Tree → Nat
  | .node _ cs => Tree.countList cs + 1
def Tree.countList : List Tree → Nat
  | [] => 0
  | c :: cs => Tree.count c + Tree.countList cs
end

mutual
/-- Pre-order index stamping with a running counter.  add_indices from
anytree_utils.py enumerates the RenderTree rows (pre-order, depth first,
children in order) and stamps each node with its enumeration position;
threading the counter through the traversal computes the same stamping. -/
def addIdx : Tree → Nat → INode
  | .node nm cs, k => .node nm k (addIdxList cs (k + 1))
def addIdxList : List Tree → Nat → List INode
  | [], _ => []
  | c :: cs, k => addIdx c k :: addIdxList cs (k + Tree.count c)
end

/-- add_indices from anytree_utils.py: stamp every node with its pre-order
position, the root receiving 0. -/
def add_indices (t : Tree) : INode :=
  addIdx t 0

mutual
/-- Forget the stamped indices, recovering the tree shape. -/
def strip : INode → Tree
  | .node nm _ cs => .node nm (stripList cs)
def stripList : List INode → List Tree
  | [] => []
  | c :: cs => strip c :: stripList cs
end

mutual
/-- The stamped indices of a subtree in pre-order. -/
def subtreeIdxs : INode → List Nat
  | .node _ i cs => i :: subtreeIdxsList cs
def subtreeIdxsList : List INode → List Nat
  | [] => []
  | c :: cs => subtreeIdxs c ++ subtreeIdxsList cs
end

mutual
/-- All nodes of a subtree in pre-order (the node itself first). -/
def allNodes : INode → List INode
  | .node nm i cs => .node nm i cs :: allNodesList cs
def allNodesList : List INode → List INode
  | [] => []
  | c :: cs => allNodes c ++ allNodesList cs
end

mutual
/-- The stamped indices of the leaf (childless) nodes of a subtree, in
depth-first order. -/
def leafIdxs : INode → List Nat
  | .node _ i cs => if cs.isEmpty then [i] else leafIdxsList cs
def leafIdxsList : List INode → List Nat
  | [] => []
  | c :: cs => leafIdxs c ++ leafIdxsList cs
end

mutual
/-- find_by_index from anytree_utils.py: anytree find with the filter
n.index == index, i.e. the node of the subtree carrying the given stamped
index (pre-order first match; on an indexed tree the match is unique). -/
def find_by_index : INode → Nat → Option INode
  | .node nm i cs, j =>
      if i = j then some (.node nm i cs) else find_by_indexList cs j
def find_by_indexList : List INode → Nat → Option INode
  | [], _ => none
  | c :: cs, j =>
      match find_by_index c j with
      | some m => some m
      | none => find_by_indexList cs j
end

mutual
/-- The chain of ancestor nodes of the node carrying index j, nearest
(parent) first and ending with the root: the successive values of
node.parent that the Python upward while-loops traverse. -/
def anc_nodes : INode → Nat → Option (List INode)
  | .node nm i cs, j =>
      if i = j then some []
      else (anc_nodesList cs j).map (fun ps => ps ++ [.node nm i cs])
def anc_nodesList : List INode → Nat → Option (List INode)
  | [], _ => none
  | c :: cs, j =>
      match anc_nodes c j with
      | some ps => some ps
      | none => anc_nodesList cs j
end

mutual
/-- get_descendants from anytree_utils.py: the node itself followed by all
of its descendants, pre-order. -/
def get_descendants : INode → List INode
  | .node nm i cs => .node nm i cs :: get_descendantsList cs
def get_descendantsList : List INode → List INode
  | [] => []
  | c :: cs => get_descendants c ++ get_descendantsList cs
end

mutual
/-- get_leaves_only from anytree_utils.py: append to the accumulator the
leaf nodes of the subtree, depth first, skipping leaves already present.
The Python membership test is object identity; nodes of one indexed tree
are identified with their stamped index, so identity is index equality. -/
def get_leaves_only : INode → List INode → List INode
  | .node nm i cs, leaves =>
      if cs.isEmpty then
        if leaves.any (fun l => l.index == i) then leaves
        else leaves ++ [.node nm i cs]
      else get_leaves_onlyList cs leaves
def get_leaves_onlyList : List INode → List INode → List INode
  | [], leaves => leaves
  | c :: cs, leaves => get_leaves_onlyList cs (get_leaves_only c leaves)
end

/-! ## Selection engine (PickPacker methods from pickpack/__init__.py) -/

/-- move_up: decrement the cursor; wrap to count_nodes - 1 below 0. -/
def move_up (root : INode) (index : Int) : Int :=
  let index := index - 1
  if index < 0 then (count_nodes root : Int) - 1 else index

/-- move_down: increment the cursor; wrap to 0 at count_nodes. -/
def move_down (root : INode) (index : Int) : Int :=
  let index := index + 1
  if index ≥ (count_nodes root : Int) then 0 else index

mutual
/-- check_children: for every child, append its index to all_selected when
absent, and recurse into children that themselves have children. -/
def check_children : INode → List Nat → List Nat
  | .node _ _ cs, all_selected => check_childrenList cs all_selected
def check_childrenList : List INode → List Nat → List Nat
  | [], all_selected => all_selected
  | c :: cs, all_selected =>
      let s1 := if c.index ∈ all_selected then all_selected
                else all_selected ++ [c.index]
      let s2 := if c.children.isEmpty then s1 else check_children c s1
      check_childrenList cs s2
end

/-- The all_checked accumulator of check_ancestors: the running product of
the 0/1 membership indicators of the children of one ancestor. -/
def all_checked (cs : List INode) (all_selected : List Nat) : Nat :=
  cs.foldl (fun acc c => acc * (if c.index ∈ all_selected then 1 else 0)) 1

/-- check_ancestors: walk up the ancestor chain (nearest first); when the
product of the membership indicators of the parent's children is positive,
append the parent's index and continue from the parent, otherwise stop. -/
def check_ancestors : List INode → List Nat → List Nat
  | [], all_selected => all_selected
  | p :: ps, all_selected =>
      if 0 < all_checked p.children all_selected then
        check_ancestors ps (all_selected ++ [p.index])
      else all_selected

mutual
/-- uncheck_children: for every child, remove its index from all_selected
when present, recursing into children that themselves have children. -/
def uncheck_children : INode → List Nat → List Nat
  | .node _ _ cs, all_selected => uncheck_childrenList cs all_selected
def uncheck_childrenList : List INode → List Nat → List Nat
  | [], all_selected => all_selected
  | c :: cs, all_selected =>
      let s1 := if c.index ∈ all_selected then all_selected.erase c.index
                else all_selected
      let s2 := if c.children.isEmpty then s1 else uncheck_children c s1
      uncheck_childrenList cs s2
end

/-- uncheck_ancestors: walk up the ancestor chain removing each parent's
index; the ValueError raised by list.remove on an absent element stops
the walk, so an absent parent ends it immediately. -/
def uncheck_ancestors : List INode → List Nat → List Nat
  | [], all_selected => all_selected
  | p :: ps, all_selected =>
      if p.index ∈ all_selected then
        uncheck_ancestors ps (all_selected.erase p.index)
      else all_selected

/-- mark_index: in multiselect, toggle the node at the cursor index and
cascade (add_relatives_index and remove_relatives_index inlined: they look
up the node by index and run the child and ancestor passes).  Outside
multiselect, or if the index has no node (impossible for a cursor kept in
range), the selection is unchanged. -/
def mark_index (root : INode) (multiselect : Bool) (index : Nat)
    (all_selected : List Nat) : List Nat :=
  if multiselect then
    if index ∈ all_selected then
      let s1 := all_selected.erase index
      match find_by_index root index, anc_nodes root index with
      | some n, some ps => uncheck_ancestors ps (uncheck_children n s1)
      | _, _ => s1
    else
      let s1 := all_selected ++ [index]
      match find_by_index root index, anc_nodes root index with
      | some n, some ps => check_ancestors ps (check_children n s1)
      | _, _ => s1
  else all_selected

/-- The all_selected lists reachable in an interactive session on the
indexed tree root with multiselect on: the session starts with the empty
list, cursor moves leave it unchanged, and every toggle happens at the
cursor, which ranges over exactly the stamped indices of the tree. -/
inductive Reachable (root : INode) : List Nat → Prop where
  | init : Reachable root []
  | toggle (i : Nat) (sel : List Nat) :
      i ∈ subtreeIdxs root → Reachable root sel →
      Reachable root (mark_index root true i sel)

/-- PickPacker.__post_init__ for a RenderTree (pre-built tree) input with
valid output_format, indicator design and mapping-function options: the
element-count check, the leaves-only mode check, the default_index check
(written with the two disjuncts of the source condition that apply to a
RenderTree), the min_selection_count check, the indexing pass, and the
initial cursor assignment. -/
def postInit (options : Tree) (default_index : Int) (multiselect : Bool)
    (min_selection_count : Int)
    (singleselect_output_include_children output_leaves_only : Bool) :
    Except String (INode × Int) :=
  if Tree.count options = 0 then
    .error ("options should not be an empty list")
  else if ¬multiselect ∧ ¬singleselect_output_include_children ∧ output_leaves_only then
    .error ("To output only leaves on singleselect mode, singleselect_output_include_children MUST be True")
  else if default_index > (Tree.count options : Int) ∨
      default_index ≥ (Tree.count options : Int) then
    .error ("default_index should be less than the length of options")
  else if multiselect ∧ min_selection_count > (Tree.count options : Int) then
    .error ("min_selection_count is bigger than the available options")
  else
    .ok (add_indices options, default_index)

/-! ## Output shaping (OutputMode and the get_selected family) -/

/-- The four output modes.  In the source this is an IntEnum whose numeric
values 0..3 take part in a boolean test; toNat records them. -/
inductive OutputMode where
  | nodeindex
  | nameindex
  | nodeonly
  | nameonly
deriving DecidableEq

/-- The IntEnum value of an output mode. -/
def OutputMode.toNat : OutputMode → Nat
  | .nodeindex => 0
  | .nameindex => 1
  | .nodeonly => 2
  | .nameonly => 3

/-- One element of a get_selected result: a node or a name, with or
without the paired index. -/
inductive OutItem where
  | onode (n : INode)
  | oname (s : String)
  | onodeIdx (n : INode) (i : Nat)
  | onameIdx (s : String) (i : Nat)

/-- A get_selected result: a bare tuple (single select without children)
or a list of entries. -/
inductive PickResult where
  | single (x : OutItem)
  | many (xs : List OutItem)

/-- Does an item equal the (name, index) tuple?  Tuple comparison in the
source is by value on both components. -/
def OutItem.eqNameIdx : OutItem → String → Nat → Bool
  | .onameIdx s i, s2, i2 => s == s2 && i == i2
  | _, _, _ => false

/-- Does an item equal the (node, index) tuple?  The node component is
compared by object identity, which on one indexed tree is index
equality. -/
def OutItem.eqNodeIdx : OutItem → Nat → Bool
  | .onodeIdx _ i, i2 => i == i2
  | _, _ => false

/-- The multiselect leaves-only loop of get_selected_withindex: for every
selected index, extend the result with the leaf tuples of its node that
are not already present.  A failed index lookup is the Python None
dereference, modelled as none. -/
def withindexLeaves (root : INode) : List Nat → List OutItem → Bool →
    Option (List OutItem)
  | [], acc, _ => some acc
  | s :: ss, acc, nameonly =>
      (find_by_index root s).bind (fun node =>
        let fresh := get_leaves_only node []
        let adds :=
          if nameonly then
            (fresh.filter (fun leaf =>
              ¬ acc.any (fun it => it.eqNameIdx leaf.name leaf.index))).map
              (fun leaf => OutItem.onameIdx leaf.name leaf.index)
          else
            (fresh.filter (fun leaf =>
              ¬ acc.any (fun it => it.eqNodeIdx leaf.index))).map
              (fun leaf => OutItem.onodeIdx leaf leaf.index)
        withindexLeaves root ss (acc ++ adds) nameonly)

/-- The multiselect leaves-only loop of get_selected_noindex: for every
selected index, extend the accumulated node list with the leaves of its
node that are not already present (identity, i.e. index, comparison).
Note the source appends the leaf nodes themselves whatever the output
mode. -/
def noindexLeaves (root : INode) : List Nat → List INode →
    Option (List INode)
  | [], acc => some acc
  | s :: ss, acc =>
      (find_by_index root s).bind (fun node =>
        let fresh := get_leaves_only node []
        let adds := fresh.filter (fun leaf =>
          ¬ acc.any (fun a => a.index == leaf.index))
        noindexLeaves root ss (acc ++ adds))

/-- get_selected_noindex.  nameonly is the comparison with
OutputMode.nameonly from the source. -/
def get_selected_noindex (root : INode) (all_selected : List Nat)
    (index : Nat) (multiselect output_leaves_only : Bool)
    (singleselect_output_include_children : Bool) (fmt : OutputMode) :
    Option PickResult :=
  let nameonly := fmt = OutputMode.nameonly
  if multiselect then
    if output_leaves_only then
      (noindexLeaves root all_selected []).map (fun ls =>
        .many (ls.map OutItem.onode))
    else
      (all_selected.mapM (fun s =>
        (find_by_index root s).map (fun n =>
          if nameonly then OutItem.oname n.name else OutItem.onode n))).map
        PickResult.many
  else
    (find_by_index root index).map (fun node =>
      if output_leaves_only then
        .many ((get_leaves_only node []).map (fun leaf =>
          if nameonly then OutItem.oname leaf.name else OutItem.onode leaf))
      else
        if singleselect_output_include_children then
          .many ((get_descendants node).map (fun d =>
            if nameonly then OutItem.oname d.name else OutItem.onode d))
        else
          if nameonly then .single (.oname node.name)
          else .single (.onode node))

/-- get_selected_withindex.  nameonly is bool(self.output_format), true
for every mode whose IntEnum value is nonzero. -/
def get_selected_withindex (root : INode) (all_selected : List Nat)
    (index : Nat) (multiselect output_leaves_only : Bool)
    (singleselect_output_include_children : Bool) (fmt : OutputMode) :
    Option PickResult :=
  let nameonly := fmt.toNat ≠ 0
  if multiselect then
    if output_leaves_only then
      (withindexLeaves root all_selected [] nameonly).map PickResult.many
    else
      (all_selected.mapM (fun s =>
        (find_by_index root s).map (fun n =>
          if nameonly then OutItem.onameIdx n.name s
          else OutItem.onodeIdx n s))).map PickResult.many
  else
    (find_by_index root index).map (fun node =>
      if singleselect_output_include_children then
        if output_leaves_only then
          .many ((get_leaves_only node []).map (fun leaf =>
            if nameonly then OutItem.onameIdx leaf.name leaf.index
            else OutItem.onodeIdx leaf leaf.index))
        else
          .many ((get_descendants node).map (fun d =>
            if nameonly then OutItem.onameIdx d.name d.index
            else OutItem.onodeIdx d d.index))
      else
        if nameonly then .single (.onameIdx node.name index)
        else .single (.onodeIdx node index))

/-- get_selected: dispatch on the output mode. -/
def get_selected (root : INode) (all_selected : List Nat) (index : Nat)
    (multiselect output_leaves_only : Bool)
    (singleselect_output_include_children : Bool) (fmt : OutputMode) :
    Option PickResult :=
  if fmt = OutputMode.nodeindex ∨ fmt = OutputMode.nameindex then
    get_selected_withindex root all_selected index multiselect
      output_leaves_only singleselect_output_include_children fmt
  else if fmt = OutputMode.nameonly ∨ fmt = OutputMode.nodeonly then
    get_selected_noindex root all_selected index multiselect
      output_leaves_only singleselect_output_include_children fmt
  else none

/-! ## Specification-side cascade (the wording of the spec, over sets)

The spec describes the cascades over the set of selected indices.  These
definitions follow the words of section 4.3 of the spec; the refinement
claims compare them with the source translations above. -/

/-- Spec wording, upward walk of cascade-select: for each ancestor A in
turn, if all of the direct children of A are already selected, add A and
continue from A; otherwise stop. -/
def select_walk_spec : List INode → Finset ℕ → Finset ℕ
  | [], S => S
  | p :: ps, S =>
      if ∀ c ∈ p.children, c.index ∈ S then
        select_walk_spec ps (insert p.index S)
      else S

/-- Spec wording, cascade-select on node X (looked up by index): add X and
every descendant of X to the selected set, then walk upward. -/
def cascade_select (root : INode) (i : Nat) (S : Finset ℕ) : Finset ℕ :=
  match find_by_index root i, anc_nodes root i with
  | some m, some ps => select_walk_spec ps (S ∪ (subtreeIdxs m).toFinset)
  | _, _ => S

/-- Spec wording, upward walk of cascade-unselect: for each ancestor A in
turn, if A is selected remove it and continue from A; at the first
ancestor that is not selected stop immediately. -/
def unselect_walk_spec : List INode → Finset ℕ → Finset ℕ
  | [], S => S
  | p :: ps, S =>
      if p.index ∈ S then unselect_walk_spec ps (S.erase p.index)
      else S

/-- Spec wording, cascade-unselect on node X (looked up by index): remove
X and every descendant of X from the selected set, then walk upward. -/
def cascade_unselect (root : INode) (i : Nat) (S : Finset ℕ) : Finset ℕ :=
  match find_by_index root i, anc_nodes root i with
  | some m, some ps => unselect_walk_spec ps (S \ (subtreeIdxs m).toFinset)
  | _, _ => S

/-! ## Structural lemmas: indexing -/

theorem subtreeIdxsList_eq_flatten (cs : List INode) :
    subtreeIdxsList cs = (cs.map subtreeIdxs).flatten := by
  induction cs with
  | nil => rfl
  | cons c cs ih => rw [subtreeIdxsList, ih]; rfl

mutual
theorem length_subtreeIdxs (n : INode) :
    (subtreeIdxs n).length = count_nodes n := by
  cases n with
  | node nm i cs =>
    rw [subtreeIdxs, count_nodes, List.length_cons,
      length_subtreeIdxsList cs, Nat.add_comm]
theorem length_subtreeIdxsList (cs : List INode) :
    (subtreeIdxsList cs).length = count_nodesList cs := by
  cases cs with
  | nil => rfl
  | cons c cs =>
    rw [subtreeIdxsList, count_nodesList, List.length_append,
      length_subtreeIdxs c, length_subtreeIdxsList cs]
end

mutual
theorem subtreeIdxs_addIdx (t : Tree) (k : Nat) :
    subtreeIdxs (addIdx t k) = List.range' k (Tree.count t) := by
  cases t with
  | node nm cs =>
    rw [addIdx, subtreeIdxs, subtreeIdxsList_addIdxList cs (k + 1),
      Tree.count, List.range'_succ]
theorem subtreeIdxsList_addIdxList (ts : List Tree) (k : Nat) :
    subtreeIdxsList (addIdxList ts k) = List.range' k (Tree.countList ts) := by
  cases ts with
  | nil => rfl
  | cons t ts =>
    rw [addIdxList, subtreeIdxsList, subtreeIdxs_addIdx t k,
      subtreeIdxsList_addIdxList ts (k + Tree.count t), Tree.countList]
    have h := List.range'_append k (Tree.count t) (Tree.countList ts) 1
    simp only [Nat.one_mul] at h
    rw [Nat.add_comm (Tree.countList ts) (Tree.count t)] at h
    exact h
end

mutual
theorem strip_addIdx (t : Tree) (k : Nat) : strip (addIdx t k) = t := by
  cases t with
  | node nm cs => rw [addIdx, strip, stripList_addIdxList cs (k + 1)]
theorem stripList_addIdxList (ts : List Tree) (k : Nat) :
    stripList (addIdxList ts k) = ts := by
  cases ts with
  | nil => rfl
  | cons t ts =>
    rw [addIdxList, stripList, strip_addIdx t k,
      stripList_addIdxList ts (k + Tree.count t)]
end

theorem count_nodes_addIdx (t : Tree) (k : Nat) :
    count_nodes (addIdx t k) = Tree.count t := by
  rw [← length_subtreeIdxs, subtreeIdxs_addIdx, List.length_range']

theorem count_nodes_pos (n : INode) : 0 < count_nodes n := by
  cases n with
  | node nm i cs => rw [count_nodes]; omega

/-- A node whose subtree carries no repeated index.  The indexing pass
establishes this, and all structural reasoning flows from it. -/
def WF (n : INode) : Prop := (subtreeIdxs n).Nodup

theorem WF_addIdx (t : Tree) (k : Nat) : WF (addIdx t k) := by
  rw [WF, subtreeIdxs_addIdx]; exact List.nodup_range' k (Tree.count t)

theorem WF_add_indices (t : Tree) : WF (add_indices t) :=
  WF_addIdx t 0

/-! ## Structural lemmas: the node list of a subtree -/

theorem mem_allNodes_self (n : INode) : n ∈ allNodes n := by
  cases n with
  | node nm i cs => rw [allNodes]; exact List.mem_cons_self _ _

theorem mem_allNodesList {m : INode} {cs : List INode} :
    m ∈ allNodesList cs ↔ ∃ c ∈ cs, m ∈ allNodes c := by
  induction cs with
  | nil => simp [allNodesList]
  | cons c cs ih => rw [allNodesList]; simp [ih]

theorem mem_allNodes {m : INode} {nm : String} {i : Nat} {cs : List INode} :
    m ∈ allNodes (.node nm i cs) ↔
      m = .node nm i cs ∨ ∃ c ∈ cs, m ∈ allNodes c := by
  rw [allNodes, List.mem_cons, mem_allNodesList]

theorem child_mem_allNodes {c n : INode} (h : c ∈ n.children) :
    c ∈ allNodes n := by
  cases n with
  | node nm i cs =>
    rw [INode.children] at h
    exact mem_allNodes.mpr (.inr ⟨c, h, mem_allNodes_self c⟩)

mutual
theorem allNodes_subset_of_mem {m n : INode} (h : m ∈ allNodes n) :
    ∀ a ∈ allNodes m, a ∈ allNodes n := by
  cases n with
  | node nm i cs =>
    rcases mem_allNodes.mp h with h1 | ⟨c, hc, hmc⟩
    · intro a ha; rw [h1] at ha; exact ha
    · intro a ha
      exact mem_allNodes.mpr
        (.inr ⟨c, hc, allNodes_subset_of_mem hmc a ha⟩)
theorem allNodesList_subset_of_mem {m : INode} {cs : List INode}
    (h : m ∈ allNodesList cs) : ∀ a ∈ allNodes m, a ∈ allNodesList cs := by
  intro a ha
  rcases mem_allNodesList.mp h with ⟨c, hc, hmc⟩
  exact mem_allNodesList.mpr ⟨c, hc, allNodes_subset_of_mem hmc a ha⟩
end

mutual
theorem strongInd {P : INode → Prop}
    (step : ∀ nm i cs, (∀ c ∈ cs, P c) → P (.node nm i cs)) :
    ∀ n, P n
  | .node nm i cs => step nm i cs (strongIndList step cs)
theorem strongIndList {P : INode → Prop}
    (step : ∀ nm i cs, (∀ c ∈ cs, P c) → P (.node nm i cs)) :
    ∀ (cs : List INode), ∀ c ∈ cs, P c
  | d :: ds, c, hc => by
      rcases List.mem_cons.mp hc with h1 | h2
      · exact h1 ▸ strongInd step d
      · exact strongIndList step ds c h2
end

theorem subtree_sub_list {c : INode} {cs : List INode} (hc : c ∈ cs) :
    ∀ j ∈ subtreeIdxs c, j ∈ subtreeIdxsList cs := by
  intro j hj
  induction cs with
  | nil => cases hc
  | cons d ds ih =>
    rw [subtreeIdxsList, List.mem_append]
    rcases List.mem_cons.mp hc with h1 | h2
    · exact .inl (h1 ▸ hj)
    · exact .inr (ih h2)

theorem subtree_subset_of_mem {n : INode} :
    ∀ m ∈ allNodes n, ∀ j ∈ subtreeIdxs m, j ∈ subtreeIdxs n := by
  induction n using strongInd with
  | step nm i cs ih =>
    intro m hm j hj
    rcases mem_allNodes.mp hm with h1 | ⟨c, hc, hmc⟩
    · rw [h1] at hj; exact hj
    · rw [subtreeIdxs, List.mem_cons]
      exact .inr (subtree_sub_list hc j (ih c hc m hmc j hj))

theorem index_mem_subtreeIdxs (n : INode) : n.index ∈ subtreeIdxs n := by
  cases n with
  | node nm i cs => rw [subtreeIdxs, INode.index]; exact List.mem_cons_self _ _

theorem index_mem_of_mem_allNodes {m n : INode} (h : m ∈ allNodes n) :
    m.index ∈ subtreeIdxs n :=
  subtree_subset_of_mem m h m.index (index_mem_subtreeIdxs m)

theorem mem_subtreeIdxsList {cs : List INode} {j : Nat} :
    j ∈ subtreeIdxsList cs ↔ ∃ c ∈ cs, j ∈ subtreeIdxs c := by
  induction cs with
  | nil => simp [subtreeIdxsList]
  | cons c cs ih => rw [subtreeIdxsList]; simp [ih]

theorem exists_node_of_mem_subtree {n : INode} :
    ∀ j ∈ subtreeIdxs n, ∃ m ∈ allNodes n, m.index = j := by
  induction n using strongInd with
  | step nm i cs ih =>
    intro j hj
    rw [subtreeIdxs, List.mem_cons] at hj
    rcases hj with h1 | h2
    · exact ⟨.node nm i cs, mem_allNodes_self _, h1.symm⟩
    · rcases mem_subtreeIdxsList.mp h2 with ⟨c, hc, hjc⟩
      rcases ih c hc j hjc with ⟨m, hm, hj2⟩
      exact ⟨m, mem_allNodes.mpr (.inr ⟨c, hc, hm⟩), hj2⟩

theorem count_le_of_mem_list {c : INode} {cs : List INode} (h : c ∈ cs) :
    count_nodes c ≤ count_nodesList cs := by
  induction cs with
  | nil => cases h
  | cons d ds ih =>
    rw [count_nodesList]
    rcases List.mem_cons.mp h with h1 | h2
    · rw [h1]; omega
    · have := ih h2; omega

theorem count_lt_of_child {c n : INode} (h : c ∈ n.children) :
    count_nodes c < count_nodes n := by
  cases n with
  | node nm i cs =>
    rw [INode.children] at h
    rw [count_nodes]
    have := count_le_of_mem_list h
    omega

mutual
theorem count_le_of_mem_allNodes {m n : INode} (h : m ∈ allNodes n) :
    count_nodes m ≤ count_nodes n := by
  cases n with
  | node nm i cs =>
    rcases mem_allNodes.mp h with h1 | ⟨c, hc, hmc⟩
    · rw [h1]
    · have h2 := count_le_of_mem_allNodes hmc
      have h3 := count_le_of_mem_list hc
      rw [count_nodes]; omega
theorem count_le_of_mem_allNodesList {m : INode} {cs : List INode}
    (h : m ∈ allNodesList cs) : count_nodes m ≤ count_nodesList cs := by
  rcases mem_allNodesList.mp h with ⟨c, hc, hmc⟩
  have h2 := count_le_of_mem_allNodes hmc
  have h3 := count_le_of_mem_list hc
  omega
end

theorem allNodes_antisymm {m n : INode} (h1 : m ∈ allNodes n)
    (h2 : n ∈ allNodes m) : m = n := by
  cases n with
  | node nm i cs =>
    rcases mem_allNodes.mp h1 with h3 | ⟨c, hc, hmc⟩
    · exact h3
    · have hcm := count_le_of_mem_allNodes hmc
      have hnc := count_le_of_mem_allNodes h2
      have hlt := count_lt_of_child (n := .node nm i cs)
        (by rw [INode.children]; exact hc)
      omega

/-! ## Structural lemmas: leaves -/

theorem mem_leafIdxsList {cs : List INode} {l : Nat} :
    l ∈ leafIdxsList cs ↔ ∃ c ∈ cs, l ∈ leafIdxs c := by
  induction cs with
  | nil => simp [leafIdxsList]
  | cons c cs ih => rw [leafIdxsList]; simp [ih]

theorem leafIdxs_of_leaf {nm : String} {i : Nat} :
    leafIdxs (.node nm i []) = [i] := by
  rw [leafIdxs]; rfl

theorem leafIdxs_of_internal {nm : String} {i : Nat} {cs : List INode}
    (h : cs ≠ []) : leafIdxs (.node nm i cs) = leafIdxsList cs := by
  rw [leafIdxs, if_neg]
  simp [List.isEmpty_iff, h]

theorem leafIdxs_subset_subtreeIdxs {n : INode} :
    ∀ l ∈ leafIdxs n, l ∈ subtreeIdxs n := by
  induction n using strongInd with
  | step nm i cs ih =>
    intro l hl
    rw [subtreeIdxs, List.mem_cons]
    cases cs with
    | nil => rw [leafIdxs_of_leaf, List.mem_singleton] at hl; exact .inl hl
    | cons d ds =>
      rw [leafIdxs_of_internal (by simp)] at hl
      rcases mem_leafIdxsList.mp hl with ⟨c, hc, hlc⟩
      exact .inr (subtree_sub_list hc l (ih c hc l hlc))

theorem exists_mem_leafIdxs (n : INode) : ∃ l, l ∈ leafIdxs n := by
  induction n using strongInd with
  | step nm i cs ih =>
    cases cs with
    | nil => exact ⟨i, by rw [leafIdxs_of_leaf]; exact List.mem_singleton_self i⟩
    | cons d ds =>
      rcases ih d (List.mem_cons_self d ds) with ⟨l, hl⟩
      exact ⟨l, by
        rw [leafIdxs_of_internal (by simp)]
        exact mem_leafIdxsList.mpr ⟨d, List.mem_cons_self d ds, hl⟩⟩

theorem leafIdxs_subset_of_mem {n : INode} :
    ∀ m ∈ allNodes n, ∀ l ∈ leafIdxs m, l ∈ leafIdxs n := by
  induction n using strongInd with
  | step nm i cs ih =>
    intro m hm l hl
    rcases mem_allNodes.mp hm with h1 | ⟨c, hc, hmc⟩
    · rw [h1] at hl; exact hl
    · have hcs : cs ≠ [] := by intro h; rw [h] at hc; cases hc
      rw [leafIdxs_of_internal hcs]
      exact mem_leafIdxsList.mpr ⟨c, hc, ih c hc m hmc l hl⟩

theorem exists_leaf_node {n : INode} :
    ∀ l ∈ leafIdxs n, ∃ q ∈ allNodes n, q.index = l ∧ q.children = [] := by
  induction n using strongInd with
  | step nm i cs ih =>
    intro l hl
    cases cs with
    | nil =>
      rw [leafIdxs_of_leaf, List.mem_singleton] at hl
      exact ⟨.node nm i [], mem_allNodes_self _, hl.symm, rfl⟩
    | cons d ds =>
      rw [leafIdxs_of_internal (by simp)] at hl
      rcases mem_leafIdxsList.mp hl with ⟨c, hc, hlc⟩
      rcases ih c hc l hlc with ⟨q, hq, hqi, hqc⟩
      exact ⟨q, mem_allNodes.mpr (.inr ⟨c, hc, hq⟩), hqi, hqc⟩

theorem leaf_mem_leafIdxs {n : INode} :
    ∀ q ∈ allNodes n, q.children = [] → q.index ∈ leafIdxs n := by
  induction n using strongInd with
  | step nm i cs ih =>
    intro q hq hqc
    rcases mem_allNodes.mp hq with h1 | ⟨c, hc, hqm⟩
    · rw [h1] at hqc ⊢
      rw [INode.children] at hqc
      rw [hqc, leafIdxs_of_leaf, INode.index]
      exact List.mem_singleton_self i
    · have hcs : cs ≠ [] := by intro h; rw [h] at hc; cases hc
      rw [leafIdxs_of_internal hcs]
      exact mem_leafIdxsList.mpr ⟨c, hc, ih c hc q hqm hqc⟩

/-! ## Structural lemmas: consequences of WF -/

theorem subtree_sublist_list {c : INode} {cs : List INode} (hc : c ∈ cs) :
    (subtreeIdxs c).Sublist (subtreeIdxsList cs) := by
  induction cs with
  | nil => cases hc
  | cons d ds ih =>
    rw [subtreeIdxsList]
    rcases List.mem_cons.mp hc with h1 | h2
    · exact h1 ▸ List.sublist_append_left _ _
    · exact (ih h2).trans (List.sublist_append_right _ _)

theorem subtree_sublist_of_mem {m n : INode} (h : m ∈ allNodes n) :
    (subtreeIdxs m).Sublist (subtreeIdxs n) := by
  induction n using strongInd with
  | step nm i cs ih =>
    rcases mem_allNodes.mp h with h1 | ⟨c, hc, hmc⟩
    · rw [h1]
    · rw [subtreeIdxs]
      exact ((ih c hc hmc).trans (subtree_sublist_list hc)).trans
        (List.sublist_cons_self _ _)

theorem WF_of_mem_allNodes {m n : INode} (hn : WF n) (h : m ∈ allNodes n) :
    WF m :=
  List.Nodup.sublist (subtree_sublist_of_mem h) hn

theorem WF_nodup_children {nm : String} {i : Nat} {cs : List INode}
    (h : WF (.node nm i cs)) : (subtreeIdxsList cs).Nodup := by
  rw [WF, subtreeIdxs] at h
  exact (List.nodup_cons.mp h).2

theorem WF_index_not_mem_children {nm : String} {i : Nat} {cs : List INode}
    (h : WF (.node nm i cs)) : i ∉ subtreeIdxsList cs := by
  rw [WF, subtreeIdxs] at h
  exact (List.nodup_cons.mp h).1

theorem WF_child {nm : String} {i : Nat} {cs : List INode}
    (h : WF (.node nm i cs)) {c : INode} (hc : c ∈ cs) : WF c :=
  WF_of_mem_allNodes h (child_mem_allNodes (by rw [INode.children]; exact hc))

theorem children_disj {cs : List INode}
    (h : (subtreeIdxsList cs).Nodup) {c1 c2 : INode} {j : Nat}
    (h1 : c1 ∈ cs) (h2 : c2 ∈ cs)
    (hj1 : j ∈ subtreeIdxs c1) (hj2 : j ∈ subtreeIdxs c2) : c1 = c2 := by
  induction cs with
  | nil => cases h1
  | cons d ds ih =>
    rw [subtreeIdxsList] at h
    have hdisj := List.disjoint_of_nodup_append h
    rcases List.mem_cons.mp h1 with g1 | g1 <;>
      rcases List.mem_cons.mp h2 with g2 | g2
    · rw [g1, g2]
    · exact absurd (subtree_sub_list g2 j hj2) (hdisj (g1 ▸ hj1))
    · exact absurd (subtree_sub_list g1 j hj1) (hdisj (g2 ▸ hj2))
    · exact ih (List.Nodup.of_append_right h) g1 g2

theorem strict_index_not_mem {q c : INode} (hWF : WF c)
    (hq : q ∈ allNodes c) (hne : q ≠ c) : c.index ∉ subtreeIdxs q := by
  cases c with
  | node nm i cs =>
    rcases mem_allNodes.mp hq with h1 | ⟨d, hd, hqd⟩
    · exact absurd h1 hne
    · intro hmem
      exact WF_index_not_mem_children hWF
        (subtree_sub_list hd _ (subtree_subset_of_mem q hqd _
          (by rw [INode.index] at hmem; exact hmem)))

theorem tri_of_WF {n : INode} (hWF : WF n) :
    ∀ q ∈ allNodes n, ∀ t ∈ allNodes n,
      q ∈ allNodes t ∨ t ∈ allNodes q ∨
        ∀ j ∈ subtreeIdxs q, j ∉ subtreeIdxs t := by
  induction n using strongInd with
  | step nm i cs ih =>
    intro q hq t ht
    rcases mem_allNodes.mp hq with h1 | ⟨c1, hc1, hq1⟩
    · exact .inr (.inl (h1 ▸ ht))
    · rcases mem_allNodes.mp ht with h2 | ⟨c2, hc2, ht2⟩
      · exact .inl (h2 ▸ hq)
      · by_cases hover : ∃ j, j ∈ subtreeIdxs q ∧ j ∈ subtreeIdxs t
        · rcases hover with ⟨j, hjq, hjt⟩
          have hceq : c1 = c2 :=
            children_disj (WF_nodup_children hWF) hc1 hc2
              (subtree_subset_of_mem q hq1 j hjq)
              (subtree_subset_of_mem t ht2 j hjt)
          exact ih c1 hc1 (WF_child hWF hc1) q hq1 t (hceq ▸ ht2)
        · push_neg at hover
          exact .inr (.inr hover)

theorem index_inj_of_WF {n : INode} (hWF : WF n) {q t : INode}
    (hq : q ∈ allNodes n) (ht : t ∈ allNodes n)
    (hidx : q.index = t.index) : q = t := by
  rcases tri_of_WF hWF q hq t ht with h | h | h
  · by_cases hne : q = t
    · exact hne
    · exact absurd (hidx ▸ index_mem_subtreeIdxs q)
        (strict_index_not_mem (WF_of_mem_allNodes hWF ht) h hne)
  · by_cases hne : t = q
    · exact hne.symm
    · have hnot : q.index ∉ subtreeIdxs t :=
        strict_index_not_mem (WF_of_mem_allNodes hWF hq) h hne
      have hmem : q.index ∈ subtreeIdxs t := by
        rw [hidx]; exact index_mem_subtreeIdxs t
      exact absurd hmem hnot
  · exact absurd (hidx ▸ index_mem_subtreeIdxs t)
      (h q.index (index_mem_subtreeIdxs q))

theorem child_step {t q : INode} (h : t ∈ allNodes q) (hne : t ≠ q) :
    ∃ c ∈ q.children, t ∈ allNodes c := by
  cases q with
  | node nm i cs =>
    rcases mem_allNodes.mp h with h1 | ⟨c, hc, htc⟩
    · exact absurd h1 hne
    · exact ⟨c, by rw [INode.children]; exact hc, htc⟩

theorem parent_uniq {n : INode} (hWF : WF n) {p q t : INode}
    (hp : p ∈ allNodes n) (hq : q ∈ allNodes n)
    (htp : t ∈ p.children) (htq : t ∈ q.children) : p = q := by
  have key : ∀ a b : INode, a ∈ allNodes n → b ∈ allNodes n →
      t ∈ a.children → t ∈ b.children → a ∈ allNodes b → a = b := by
    intro a b ha hb hta htb hab
    by_cases hne : a = b
    · exact hne
    · rcases child_step hab hne with ⟨c, hc, hac⟩
      have htca : t ∈ allNodes c :=
        allNodes_subset_of_mem hac t (child_mem_allNodes hta)
      cases b with
      | node nm i cs =>
        rw [INode.children] at hc htb
        have htc : t = c :=
          children_disj (WF_nodup_children (WF_of_mem_allNodes hWF hb))
            htb hc (index_mem_subtreeIdxs t)
            (subtree_subset_of_mem t htca _ (index_mem_subtreeIdxs t))
        have hat : a ∈ allNodes t := htc ▸ hac
        have hta2 : t ∈ allNodes a := child_mem_allNodes hta
        have : a = t := allNodes_antisymm hat hta2
        rw [this] at hta
        exact absurd (count_lt_of_child hta) (by omega)
  rcases tri_of_WF hWF p hp q hq with h | h | h
  · exact key p q hp hq htp htq h
  · exact (key q p hq hp htq htp h).symm
  · exact absurd (subtree_subset_of_mem t (child_mem_allNodes htq) _
      (index_mem_subtreeIdxs t))
      (h t.index (subtree_subset_of_mem t (child_mem_allNodes htp) _
        (index_mem_subtreeIdxs t)))

/-! ## Ancestor chains -/

/-- ChainOK root m ps: ps is the chain of ancestors of node m, nearest
first, ending with root. -/
inductive ChainOK (root : INode) : INode → List INode → Prop where
  | nil : ChainOK root root []
  | cons {m p : INode} {ps : List INode} :
      m ∈ p.children → ChainOK root p ps → ChainOK root m (p :: ps)

theorem chainOK_append {mid root m : INode} {ps qs : List INode}
    (h1 : ChainOK mid m ps) (h2 : ChainOK root mid qs) :
    ChainOK root m (ps ++ qs) := by
  induction h1 with
  | nil => exact h2
  | cons hc _ ih => exact .cons hc ih

theorem chainOK_nil_eq {root m : INode} (h : ChainOK root m []) :
    m = root := by
  cases h; rfl

theorem chainOK_cons_inv {root m p : INode} {ps : List INode}
    (h : ChainOK root m (p :: ps)) :
    m ∈ p.children ∧ ChainOK root p ps := by
  cases h with
  | cons hc hp => exact ⟨hc, hp⟩

theorem chainOK_mem_root {root m : INode} {ps : List INode}
    (h : ChainOK root m ps) :
    m ∈ allNodes root ∧ ∀ p ∈ ps, p ∈ allNodes root := by
  induction h with
  | nil => exact ⟨mem_allNodes_self root, by intro p hp; cases hp⟩
  | cons hc _ ih =>
    refine ⟨allNodes_subset_of_mem ih.1 _ (child_mem_allNodes hc), ?_⟩
    intro p hp
    rcases List.mem_cons.mp hp with h1 | h2
    · exact h1 ▸ ih.1
    · exact ih.2 p h2

theorem chainOK_contains {root m : INode} {ps : List INode}
    (h : ChainOK root m ps) : ∀ p ∈ ps, m ∈ allNodes p := by
  induction h with
  | nil => intro p hp; cases hp
  | cons hc _ ih =>
    intro p hp
    rcases List.mem_cons.mp hp with h1 | h2
    · exact h1 ▸ child_mem_allNodes hc
    · exact allNodes_subset_of_mem (ih p h2) _ (child_mem_allNodes hc)

/-- The node-level form of children_disj: two children of a WF node whose
subtrees share an index are the same child. -/
theorem children_disj_node {p : INode} (h : WF p) {c1 c2 : INode} {j : Nat}
    (h1 : c1 ∈ p.children) (h2 : c2 ∈ p.children)
    (hj1 : j ∈ subtreeIdxs c1) (hj2 : j ∈ subtreeIdxs c2) : c1 = c2 := by
  cases p with
  | node nm i cs =>
    rw [INode.children] at h1 h2
    exact children_disj (WF_nodup_children h) h1 h2 hj1 hj2

theorem chain_complete {root : INode} (hWF : WF root) {m : INode}
    {ps : List INode} (h : ChainOK root m ps) :
    ∀ q ∈ allNodes root, m ∈ allNodes q → q ≠ m → q ∈ ps := by
  induction h with
  | nil =>
    intro q hq hmq hne
    exact absurd (allNodes_antisymm hmq hq).symm hne
  | @cons m p ps hc hp ih =>
    intro q hq hmq hne
    have hproot : p ∈ allNodes root := (chainOK_mem_root hp).1
    have hWFp : WF p := WF_of_mem_allNodes hWF hproot
    have hmroot : m ∈ allNodes root :=
      allNodes_subset_of_mem hproot m (child_mem_allNodes hc)
    rcases child_step hmq (fun h2 => hne h2.symm) with ⟨c, hcq, hmc⟩
    by_cases hTc : m = c
    · have hq2 : q = p :=
        parent_uniq hWF hq hproot (hTc ▸ hcq) hc
      exact hq2 ▸ List.mem_cons_self _ _
    · have hqpne : q ≠ p := by
        intro hqp
        have hcp : c ∈ p.children := hqp ▸ hcq
        exact hTc (children_disj_node hWFp hc hcp (index_mem_subtreeIdxs m)
          (subtree_subset_of_mem m hmc _ (index_mem_subtreeIdxs m)))
      rcases tri_of_WF hWF p hproot q hq with h1 | h1 | h1
      · exact List.mem_cons_of_mem _ (ih q hq h1 hqpne)
      · exfalso
        rcases child_step h1 hqpne with ⟨e, hep, hqe⟩
        have hme : m ∈ allNodes e := allNodes_subset_of_mem hqe m hmq
        have hmeq : m = e :=
          children_disj_node hWFp hc hep (index_mem_subtreeIdxs m)
            (subtree_subset_of_mem m hme _ (index_mem_subtreeIdxs m))
        have hqm : q ∈ allNodes m := hmeq ▸ hqe
        exact hne (allNodes_antisymm hqm hmq)
      · exact absurd (subtree_subset_of_mem m hmq _ (index_mem_subtreeIdxs m))
          (h1 m.index (subtree_subset_of_mem m (child_mem_allNodes hc) _
            (index_mem_subtreeIdxs m)))

/-! ## Lookup lemmas -/

theorem find_by_indexList_none {j : Nat} {cs : List INode}
    (h : ∀ c ∈ cs, find_by_index c j = none) :
    find_by_indexList cs j = none := by
  induction cs with
  | nil => rfl
  | cons c cs ih =>
    rw [find_by_indexList, h c (List.mem_cons_self _ _)]
    exact ih (fun d hd => h d (List.mem_cons_of_mem _ hd))

theorem anc_nodesList_none {j : Nat} {cs : List INode}
    (h : ∀ c ∈ cs, anc_nodes c j = none) :
    anc_nodesList cs j = none := by
  induction cs with
  | nil => rfl
  | cons c cs ih =>
    rw [anc_nodesList, h c (List.mem_cons_self _ _)]
    exact ih (fun d hd => h d (List.mem_cons_of_mem _ hd))

theorem find_anc_none {n : INode} :
    ∀ j, j ∉ subtreeIdxs n →
      find_by_index n j = none ∧ anc_nodes n j = none := by
  induction n using strongInd with
  | step nm i cs ih =>
    intro j hj
    rw [subtreeIdxs, List.mem_cons] at hj
    push_neg at hj
    have hnone : ∀ c ∈ cs, find_by_index c j = none ∧ anc_nodes c j = none :=
      fun c hc => ih c hc j
        (fun hmem => hj.2 (subtree_sub_list hc j hmem))
    constructor
    · rw [find_by_index, if_neg (fun h => hj.1 h.symm)]
      exact find_by_indexList_none (fun c hc => (hnone c hc).1)
    · rw [anc_nodes, if_neg (fun h => hj.1 h.symm)]
      rw [anc_nodesList_none (fun c hc => (hnone c hc).2)]
      rfl

theorem find_anc_list {j : Nat} : ∀ (cs : List INode),
    (∀ c ∈ cs, j ∈ subtreeIdxs c →
      ∃ m ps, find_by_index c j = some m ∧ anc_nodes c j = some ps ∧
        m.index = j ∧ ChainOK c m ps) →
    j ∈ subtreeIdxsList cs →
    ∃ m ps c, find_by_indexList cs j = some m ∧
      anc_nodesList cs j = some ps ∧ m.index = j ∧ c ∈ cs ∧
      ChainOK c m ps := by
  intro cs
  induction cs with
  | nil => intro _ hj; cases hj
  | cons c cs ih =>
    intro hall hj
    by_cases hc : j ∈ subtreeIdxs c
    · rcases hall c (List.mem_cons_self _ _) hc with ⟨m, ps, hf, ha, hm, hch⟩
      refine ⟨m, ps, c, ?_, ?_, hm, List.mem_cons_self _ _, hch⟩
      · rw [find_by_indexList, hf]
      · rw [anc_nodesList, ha]
    · have hnone := find_anc_none (n := c) j hc
      have hj2 : j ∈ subtreeIdxsList cs := by
        rw [subtreeIdxsList, List.mem_append] at hj
        exact hj.resolve_left hc
      rcases ih (fun d hd => hall d (List.mem_cons_of_mem _ hd)) hj2 with
        ⟨m, ps, d, hf, ha, hm, hd, hch⟩
      refine ⟨m, ps, d, ?_, ?_, hm, List.mem_cons_of_mem _ hd, hch⟩
      · rw [find_by_indexList, hnone.1, hf]
      · rw [anc_nodesList, hnone.2, ha]

theorem find_anc_some {n : INode} :
    ∀ j ∈ subtreeIdxs n,
      ∃ m ps, find_by_index n j = some m ∧ anc_nodes n j = some ps ∧
        m.index = j ∧ ChainOK n m ps := by
  induction n using strongInd with
  | step nm i cs ih =>
    intro j hj
    by_cases hij : i = j
    · refine ⟨.node nm i cs, [], ?_, ?_, by rw [INode.index, hij], .nil⟩
      · rw [find_by_index, if_pos hij]
      · rw [anc_nodes, if_pos hij]
    · have hj2 : j ∈ subtreeIdxsList cs := by
        rw [subtreeIdxs, List.mem_cons] at hj
        exact hj.resolve_left (fun h => hij h.symm)
      rcases find_anc_list cs (fun c hc hjc => ih c hc j hjc) hj2 with
        ⟨m, ps, c, hf, ha, hm, hc, hch⟩
      refine ⟨m, ps ++ [.node nm i cs], ?_, ?_, hm, ?_⟩
      · rw [find_by_index, if_neg hij, hf]
      · rw [anc_nodes, if_neg hij, ha]; rfl
      · refine chainOK_append hch (.cons ?_ .nil)
        rw [INode.children]
        exact hc

theorem find_by_indexList_some {j : Nat} {cs : List INode} {m : INode}
    (h : find_by_indexList cs j = some m) :
    ∃ c ∈ cs, find_by_index c j = some m := by
  induction cs with
  | nil => cases h
  | cons c cs ih =>
    rw [find_by_indexList] at h
    cases hfc : find_by_index c j with
    | some m2 =>
      rw [hfc] at h
      cases h
      exact ⟨c, List.mem_cons_self _ _, hfc⟩
    | none =>
      rw [hfc] at h
      rcases ih h with ⟨d, hd, hfd⟩
      exact ⟨d, List.mem_cons_of_mem _ hd, hfd⟩

theorem find_by_index_some {n : INode} :
    ∀ {j : Nat} {m : INode}, find_by_index n j = some m →
      m ∈ allNodes n ∧ m.index = j := by
  induction n using strongInd with
  | step nm i cs ih =>
    intro j m h
    rw [find_by_index] at h
    by_cases hij : i = j
    · rw [if_pos hij] at h
      cases h
      exact ⟨mem_allNodes_self _, by rw [INode.index, hij]⟩
    · rw [if_neg hij] at h
      rcases find_by_indexList_some h with ⟨c, hc, hfc⟩
      rcases ih c hc hfc with ⟨hmem, hidx⟩
      exact ⟨mem_allNodes.mpr (.inr ⟨c, hc, hmem⟩), hidx⟩

/-- On a WF tree, looking up the index of a node of the tree returns that
node. -/
theorem find_by_index_canon {root : INode} (hWF : WF root) {q : INode}
    (hq : q ∈ allNodes root) : find_by_index root q.index = some q := by
  rcases find_anc_some q.index (index_mem_of_mem_allNodes hq) with
    ⟨m, ps, hf, _, hm, _⟩
  rcases find_by_index_some hf with ⟨hmem, _⟩
  rw [hf]
  exact congrArg some (index_inj_of_WF hWF hmem hq hm)

/-! ## Characterization of the child passes -/

theorem subtreeIdxs_eq (n : INode) :
    subtreeIdxs n = n.index :: subtreeIdxsList n.children := by
  cases n with
  | node nm i cs => rw [subtreeIdxs, INode.index, INode.children]

theorem nodup_append_singleton {sel : List Nat} {x : Nat}
    (h : sel.Nodup) (hx : x ∉ sel) : (sel ++ [x]).Nodup := by
  rw [List.nodup_append]
  exact ⟨h, List.nodup_singleton x,
    fun a ha hax => hx ((List.mem_singleton.mp hax) ▸ ha)⟩

theorem check_childrenList_aux : ∀ (cs : List INode),
    (∀ c ∈ cs, ∀ sel, sel.Nodup →
      (check_children c sel).Nodup ∧
      ∀ j, j ∈ check_children c sel ↔
        j ∈ sel ∨ j ∈ subtreeIdxsList c.children) →
    ∀ sel, sel.Nodup →
      (check_childrenList cs sel).Nodup ∧
      ∀ j, j ∈ check_childrenList cs sel ↔
        j ∈ sel ∨ j ∈ subtreeIdxsList cs := by
  intro cs
  induction cs with
  | nil =>
    intro _ sel hnd
    rw [check_childrenList]
    exact ⟨hnd, by simp [subtreeIdxsList]⟩
  | cons c cs ih =>
    intro hall sel hnd
    rw [check_childrenList]
    have hc := hall c (List.mem_cons_self _ _)
    set s1 := if c.index ∈ sel then sel else sel ++ [c.index] with hs1
    have hs1nd : s1.Nodup := by
      rw [hs1]
      split
      · exact hnd
      · exact nodup_append_singleton hnd (by assumption)
    have hs1mem : ∀ j, j ∈ s1 ↔ j ∈ sel ∨ j = c.index := by
      intro j
      rw [hs1]
      split
      · constructor
        · exact fun h => .inl h
        · intro h
          rcases h with h | h
          · exact h
          · rw [h]; assumption
      · rw [List.mem_append, List.mem_singleton]
    set s2 := if c.children.isEmpty then s1 else check_children c s1 with hs2
    have hs2nd : s2.Nodup := by
      rw [hs2]
      split
      · exact hs1nd
      · exact (hc s1 hs1nd).1
    have hs2mem : ∀ j, j ∈ s2 ↔ j ∈ sel ∨ j ∈ subtreeIdxs c := by
      intro j
      rw [hs2, subtreeIdxs_eq c]
      split
      · rename_i hemp
        rw [List.isEmpty_iff] at hemp
        rw [hemp, hs1mem j]
        simp [subtreeIdxsList]
      · rw [(hc s1 hs1nd).2 j, hs1mem j, List.mem_cons]
        tauto
    have htail := ih (fun d hd => hall d (List.mem_cons_of_mem _ hd)) s2 hs2nd
    refine ⟨htail.1, fun j => ?_⟩
    rw [htail.2 j, hs2mem j, subtreeIdxsList, List.mem_append]
    tauto

theorem check_children_props {n : INode} :
    ∀ sel, sel.Nodup →
      (check_children n sel).Nodup ∧
      ∀ j, j ∈ check_children n sel ↔
        j ∈ sel ∨ j ∈ subtreeIdxsList n.children := by
  induction n using strongInd with
  | step nm i cs ih =>
    intro sel hnd
    rw [check_children, INode.children]
    exact check_childrenList_aux cs
      (fun c hc sel2 hnd2 => ih c hc sel2 hnd2) sel hnd

theorem uncheck_childrenList_aux : ∀ (cs : List INode),
    (∀ c ∈ cs, ∀ sel, sel.Nodup →
      (uncheck_children c sel).Nodup ∧
      ∀ j, j ∈ uncheck_children c sel ↔
        j ∈ sel ∧ j ∉ subtreeIdxsList c.children) →
    ∀ sel, sel.Nodup →
      (uncheck_childrenList cs sel).Nodup ∧
      ∀ j, j ∈ uncheck_childrenList cs sel ↔
        j ∈ sel ∧ j ∉ subtreeIdxsList cs := by
  intro cs
  induction cs with
  | nil =>
    intro _ sel hnd
    rw [uncheck_childrenList]
    exact ⟨hnd, by simp [subtreeIdxsList]⟩
  | cons c cs ih =>
    intro hall sel hnd
    rw [uncheck_childrenList]
    have hc := hall c (List.mem_cons_self _ _)
    set s1 := if c.index ∈ sel then sel.erase c.index else sel with hs1
    have hs1nd : s1.Nodup := by
      rw [hs1]
      split
      · exact hnd.erase _
      · exact hnd
    have hs1mem : ∀ j, j ∈ s1 ↔ j ∈ sel ∧ j ≠ c.index := by
      intro j
      rw [hs1]
      split
      · rw [hnd.mem_erase_iff]; tauto
      · rename_i hmem
        constructor
        · intro h
          refine ⟨h, fun hj => hmem (hj ▸ h)⟩
        · exact fun h => h.1
    set s2 := if c.children.isEmpty then s1 else uncheck_children c s1 with hs2
    have hs2nd : s2.Nodup := by
      rw [hs2]
      split
      · exact hs1nd
      · exact (hc s1 hs1nd).1
    have hs2mem : ∀ j, j ∈ s2 ↔ j ∈ sel ∧ j ∉ subtreeIdxs c := by
      intro j
      rw [hs2, subtreeIdxs_eq c]
      split
      · rename_i hemp
        rw [List.isEmpty_iff] at hemp
        rw [hemp, hs1mem j]
        simp [subtreeIdxsList]
      · rw [(hc s1 hs1nd).2 j, hs1mem j, List.mem_cons]
        tauto
    have htail := ih (fun d hd => hall d (List.mem_cons_of_mem _ hd)) s2 hs2nd
    refine ⟨htail.1, fun j => ?_⟩
    rw [htail.2 j, hs2mem j, subtreeIdxsList, List.mem_append]
    tauto

theorem uncheck_children_props {n : INode} :
    ∀ sel, sel.Nodup →
      (uncheck_children n sel).Nodup ∧
      ∀ j, j ∈ uncheck_children n sel ↔
        j ∈ sel ∧ j ∉ subtreeIdxsList n.children := by
  induction n using strongInd with
  | step nm i cs ih =>
    intro sel hnd
    rw [uncheck_children, INode.children]
    exact uncheck_childrenList_aux cs
      (fun c hc sel2 hnd2 => ih c hc sel2 hnd2) sel hnd

/-- The 0/1 product of check_ancestors is positive exactly when every
child index is selected. -/
theorem all_checked_pos {cs : List INode} {sel : List Nat} :
    0 < all_checked cs sel ↔ ∀ c ∈ cs, c.index ∈ sel := by
  have key : ∀ (ds : List INode) (acc : Nat),
      List.foldl (fun acc c => acc * (if c.index ∈ sel then 1 else 0)) acc ds
        = if ∀ c ∈ ds, c.index ∈ sel then acc else 0 := by
    intro ds
    induction ds with
    | nil => intro acc; simp
    | cons d ds ih =>
      intro acc
      rw [List.foldl_cons]
      by_cases hd : d.index ∈ sel
      · rw [if_pos hd, Nat.mul_one, ih acc]
        by_cases ht : ∀ c ∈ ds, c.index ∈ sel
        · rw [if_pos ht, if_pos (by
            intro c hc
            rcases List.mem_cons.mp hc with h | h
            · exact h ▸ hd
            · exact ht c h)]
        · rw [if_neg ht, if_neg (by
            intro hall
            exact ht (fun c hc => hall c (List.mem_cons_of_mem _ hc)))]
      · rw [if_neg hd, Nat.mul_zero, ih 0]
        have hcond : ¬ ∀ c ∈ d :: ds, c.index ∈ sel := by
          intro hall2
          exact hd (hall2 d (List.mem_cons_self d ds))
        rw [if_neg hcond]
        split <;> rfl
  rw [all_checked, key cs 1]
  split
  · rename_i h; simpa using h
  · rename_i h; simpa using h

/-! ## The selection invariant and canonical form

In every reachable state the selected set is determined by its selected
leaves: an index is selected exactly when it names a node all of whose
leaves are selected.  Inv packages the pointwise closure properties; the
canonPred form is the leaf-determined description; the two are
interderivable and the toggle operation maps one canonical state to
another. -/

def Inv (root : INode) (sel : List Nat) : Prop :=
  sel.Nodup ∧
  (∀ j ∈ sel, j ∈ subtreeIdxs root) ∧
  (∀ m ∈ allNodes root, m.index ∈ sel → ∀ j ∈ subtreeIdxs m, j ∈ sel) ∧
  (∀ m ∈ allNodes root, m.children ≠ [] →
    (∀ c ∈ m.children, c.index ∈ sel) → m.index ∈ sel)

/-- j names a node of the tree all of whose leaf indices satisfy P. -/
def canonPred (root : INode) (P : Nat → Prop) (j : Nat) : Prop :=
  ∃ q ∈ allNodes root, q.index = j ∧ ∀ l ∈ leafIdxs q, P l

theorem canon_sel {root : INode} {sel : List Nat} (hInv : Inv root sel) :
    ∀ q ∈ allNodes root, (∀ l ∈ leafIdxs q, l ∈ sel) → q.index ∈ sel := by
  intro q
  induction q using strongInd with
  | step nm i cs ih =>
    intro hq hleaf
    cases cs with
    | nil =>
      have := hleaf i (by rw [leafIdxs_of_leaf]; exact List.mem_singleton_self i)
      rw [INode.index]
      exact this
    | cons d ds =>
      have hcs : d :: ds ≠ [] := by simp
      have hchild : ∀ c ∈ d :: ds, c.index ∈ sel := by
        intro c hc
        refine ih c hc (allNodes_subset_of_mem hq c
          (child_mem_allNodes (by rw [INode.children]; exact hc))) ?_
        intro l hl
        refine hleaf l ?_
        rw [leafIdxs_of_internal hcs]
        exact mem_leafIdxsList.mpr ⟨c, hc, hl⟩
      have := hInv.2.2.2 (.node nm i (d :: ds)) hq
        (by rw [INode.children]; simp)
        (by rw [INode.children]; exact hchild)
      exact this

theorem inv_canon {root : INode} {sel : List Nat} (hInv : Inv root sel) :
    ∀ j, j ∈ sel ↔ canonPred root (fun l => l ∈ sel) j := by
  intro j
  constructor
  · intro hj
    rcases exists_node_of_mem_subtree j (hInv.2.1 j hj) with ⟨q, hq, hqi⟩
    refine ⟨q, hq, hqi, ?_⟩
    intro l hl
    exact hInv.2.2.1 q hq (hqi ▸ hj) l (leafIdxs_subset_subtreeIdxs l hl)
  · rintro ⟨q, hq, hqi, hleaf⟩
    exact hqi ▸ canon_sel hInv q hq hleaf

theorem canon_inv {root : INode} (hWF : WF root) {F : List Nat}
    {P : Nat → Prop} (hnd : F.Nodup)
    (hchar : ∀ j, j ∈ F ↔ canonPred root P j) : Inv root F := by
  refine ⟨hnd, ?_, ?_, ?_⟩
  · intro j hj
    rcases (hchar j).mp hj with ⟨q, hq, hqi, _⟩
    exact hqi ▸ index_mem_of_mem_allNodes hq
  · intro m hm hmF j hj
    rcases (hchar m.index).mp hmF with ⟨q, hq, hqi, hleaf⟩
    have hqm : q = m := index_inj_of_WF hWF hq hm hqi
    subst hqm
    rcases exists_node_of_mem_subtree j hj with ⟨r, hr, hri⟩
    refine (hchar j).mpr ⟨r, allNodes_subset_of_mem hm r hr, hri, ?_⟩
    intro l hl
    exact hleaf l (leafIdxs_subset_of_mem r hr l hl)
  · intro m hm hcs hchild
    refine (hchar m.index).mpr ⟨m, hm, rfl, ?_⟩
    intro l hl
    cases m with
    | node nm i cs =>
      rw [INode.children] at hcs hchild
      rw [leafIdxs_of_internal hcs] at hl
      rcases mem_leafIdxsList.mp hl with ⟨c, hc, hlc⟩
      have hcF := hchild c hc
      rcases (hchar c.index).mp hcF with ⟨q, hq, hqi, hleafc⟩
      have hcroot : c ∈ allNodes root :=
        allNodes_subset_of_mem hm c
          (child_mem_allNodes (by rw [INode.children]; exact hc))
      have hqc : q = c := index_inj_of_WF hWF hq hcroot hqi
      subst hqc
      exact hleafc l hlc

theorem canon_mono {root : INode} {P Q : Nat → Prop}
    (h : ∀ l ∈ leafIdxs root, P l ↔ Q l) :
    ∀ j, canonPred root P j ↔ canonPred root Q j := by
  intro j
  constructor <;>
  · rintro ⟨q, hq, hqi, hleaf⟩
    refine ⟨q, hq, hqi, ?_⟩
    intro l hl
    have hroot := leafIdxs_subset_of_mem q hq l hl
    first
      | exact (h l hroot).mp (hleaf l hl)
      | exact (h l hroot).mpr (hleaf l hl)

theorem canon_leaf {root : INode} (hWF : WF root) {P : Nat → Prop} :
    ∀ l ∈ leafIdxs root, (canonPred root P l ↔ P l) := by
  intro l hl
  rcases exists_leaf_node l hl with ⟨q, hq, hqi, hqc⟩
  have hqleaf : leafIdxs q = [q.index] := by
    cases q with
    | node nm i cs =>
      rw [INode.children] at hqc
      subst hqc
      rw [leafIdxs_of_leaf, INode.index]
  constructor
  · rintro ⟨r, hr, hri, hleaf⟩
    have hrq : r = q := index_inj_of_WF hWF hr hq (hri.trans hqi.symm)
    subst hrq
    refine hri ▸ ?_
    have := hleaf r.index (by rw [hqleaf]; exact List.mem_singleton_self _)
    exact this
  · intro hP
    refine ⟨q, hq, hqi, ?_⟩
    intro x hx
    rw [hqleaf, List.mem_singleton] at hx
    rw [hx, hqi]
    exact hP

/-! ## The upward walk of cascade-select, semantically -/

theorem sel_walk {root : INode} (hWF : WF root) {sel : List Nat}
    (hInv : Inv root sel) {m : INode} (hmi : m.index ∉ sel) :
    ∀ (ps : List INode) (b : INode) (S : List Nat),
      ChainOK root b ps → m ∈ allNodes b →
      (∀ j, j ∈ S ↔ j ∈ sel ∨ j ∈ subtreeIdxs b) → S.Nodup →
      (∀ l ∈ leafIdxs b, l ∈ sel ∨ l ∈ leafIdxs m) →
      ∃ T rem, T ∈ allNodes root ∧ m ∈ allNodes T ∧
        (∀ j ∈ subtreeIdxs b, j ∈ subtreeIdxs T) ∧
        (∀ j, j ∈ check_ancestors ps S ↔ j ∈ sel ∨ j ∈ subtreeIdxs T) ∧
        (check_ancestors ps S).Nodup ∧
        (∀ l ∈ leafIdxs T, l ∈ sel ∨ l ∈ leafIdxs m) ∧
        ChainOK root T rem ∧
        (rem = [] ∨ ∃ P rem2, rem = P :: rem2 ∧
          ∃ c ∈ P.children, c.index ∉ check_ancestors ps S) := by
  intro ps
  induction ps with
  | nil =>
    intro b S hchain hmb hS hnd hleaf
    have hb := chainOK_nil_eq hchain
    rw [check_ancestors]
    refine ⟨b, [], ?_, hmb, fun j hj => hj, hS, hnd, hleaf, ?_, .inl rfl⟩
    · rw [hb]; exact mem_allNodes_self root
    · rw [hb]; exact ChainOK.nil
  | cons P ps2 ih =>
    intro b S hchain hmb hS hnd hleaf
    obtain ⟨hb, hP⟩ := chainOK_cons_inv hchain
    have hProot : P ∈ allNodes root := (chainOK_mem_root hP).1
    have hWFP : WF P := WF_of_mem_allNodes hWF hProot
    have hbP : b ∈ allNodes P := child_mem_allNodes hb
    have hmP : m ∈ allNodes P := allNodes_subset_of_mem hbP m hmb
    have hbroot : b ∈ allNodes root := allNodes_subset_of_mem hProot b hbP
    rw [check_ancestors]
    by_cases hcond : 0 < all_checked P.children S
    · rw [if_pos hcond]
      rw [all_checked_pos] at hcond
      have hbneP : b ≠ P := by
        intro h
        subst h
        exact absurd (count_lt_of_child hb) (lt_irrefl _)
      have hPnotb : P.index ∉ subtreeIdxs b :=
        strict_index_not_mem hWFP hbP hbneP
      have hPnotsel : P.index ∉ sel := by
        intro hPsel
        exact hmi (hInv.2.2.1 P hProot hPsel m.index
          (index_mem_of_mem_allNodes hmP))
      have hPS : P.index ∉ S := by
        intro h
        rcases (hS _).mp h with h1 | h1
        · exact hPnotsel h1
        · exact hPnotb h1
      have hsib : ∀ c ∈ P.children, c ≠ b → c.index ∈ sel := by
        intro c hc hcb
        rcases (hS _).mp (hcond c hc) with h1 | h1
        · exact h1
        · exact absurd
            (children_disj_node hWFP hc hb (index_mem_subtreeIdxs c) h1) hcb
      have hS2nd : (S ++ [P.index]).Nodup := nodup_append_singleton hnd hPS
      have hsubbP : ∀ j ∈ subtreeIdxs b, j ∈ subtreeIdxs P :=
        subtree_subset_of_mem b hbP
      have hS2 : ∀ j, j ∈ S ++ [P.index] ↔ j ∈ sel ∨ j ∈ subtreeIdxs P := by
        intro j
        rw [List.mem_append, List.mem_singleton, hS j]
        constructor
        · rintro ((h1 | h1) | h1)
          · exact .inl h1
          · exact .inr (hsubbP j h1)
          · exact .inr (h1 ▸ index_mem_subtreeIdxs P)
        · rintro (h1 | h1)
          · exact .inl (.inl h1)
          · rw [subtreeIdxs_eq P, List.mem_cons] at h1
            rcases h1 with h1 | h1
            · exact .inr h1
            · rcases mem_subtreeIdxsList.mp h1 with ⟨c, hc, hjc⟩
              by_cases hcb : c = b
              · exact .inl (.inr (hcb ▸ hjc))
              · have hcroot : c ∈ allNodes root :=
                  allNodes_subset_of_mem hProot c (child_mem_allNodes hc)
                exact .inl (.inl (hInv.2.2.1 c hcroot (hsib c hc hcb) j hjc))
      have hleafP : ∀ l ∈ leafIdxs P, l ∈ sel ∨ l ∈ leafIdxs m := by
        intro l hl
        cases P with
        | node pn pi pcs =>
          rw [INode.children] at hb hsib hcond
          have hpcs : pcs ≠ [] := by
            intro h
            rw [h] at hb
            cases hb
          rw [leafIdxs_of_internal hpcs] at hl
          rcases mem_leafIdxsList.mp hl with ⟨c, hc, hlc⟩
          by_cases hcb : c = b
          · exact hleaf l (hcb ▸ hlc)
          · have hcroot : c ∈ allNodes root :=
              allNodes_subset_of_mem hProot c
                (child_mem_allNodes (by rw [INode.children]; exact hc))
            exact .inl (hInv.2.2.1 c hcroot (hsib c hc hcb) l
              (leafIdxs_subset_subtreeIdxs l hlc))
      obtain ⟨T, rem, hTroot, hmT, hsubPT, hchar, hndF, hleafT, hchT, hstop⟩ :=
        ih P (S ++ [P.index]) hP hmP hS2 hS2nd hleafP
      exact ⟨T, rem, hTroot, hmT,
        fun j hj => hsubPT j (hsubbP j hj), hchar, hndF, hleafT, hchT, hstop⟩
    · rw [if_neg hcond]
      rw [all_checked_pos] at hcond
      push_neg at hcond
      rcases hcond with ⟨c, hc, hcS⟩
      exact ⟨b, P :: ps2, hbroot, hmb, fun j hj => hj, hS, hnd, hleaf,
        hchain, .inr ⟨P, ps2, rfl, c, hc, hcS⟩⟩

/-! ## The upward walk of cascade-unselect, semantically -/

/-- j is the index of a strict ancestor of m lying inside b. -/
def AncIn (b m : INode) (j : Nat) : Prop :=
  ∃ q ∈ allNodes b, m ∈ allNodes q ∧ q ≠ m ∧ q.index = j

theorem unsel_walk {root : INode} (hWF : WF root) {sel : List Nat}
    (hInv : Inv root sel) {m : INode} :
    ∀ (ps : List INode) (b : INode) (S : List Nat),
      ChainOK root b ps → m ∈ allNodes b →
      (∀ j, j ∈ S ↔ j ∈ sel ∧ j ∉ subtreeIdxs m ∧ ¬ AncIn b m j) →
      S.Nodup →
      (∀ j, j ∈ uncheck_ancestors ps S ↔
        j ∈ sel ∧ j ∉ subtreeIdxs m ∧ ¬ AncIn root m j) ∧
      (uncheck_ancestors ps S).Nodup := by
  intro ps
  induction ps with
  | nil =>
    intro b S hchain hmb hS hnd
    have hb := chainOK_nil_eq hchain
    rw [uncheck_ancestors]
    rw [hb] at hS
    exact ⟨hS, hnd⟩
  | cons P ps2 ih =>
    intro b S hchain hmb hS hnd
    obtain ⟨hb, hP⟩ := chainOK_cons_inv hchain
    have hProot : P ∈ allNodes root := (chainOK_mem_root hP).1
    have hWFP : WF P := WF_of_mem_allNodes hWF hProot
    have hbP : b ∈ allNodes P := child_mem_allNodes hb
    have hmP : m ∈ allNodes P := allNodes_subset_of_mem hbP m hmb
    have hbroot : b ∈ allNodes root := allNodes_subset_of_mem hProot b hbP
    have hmneP : m ≠ P := by
      intro h
      have h1 := count_le_of_mem_allNodes hmb
      have h2 := count_lt_of_child hb
      rw [h] at h1
      omega
    have hPnotsub : P.index ∉ subtreeIdxs m :=
      strict_index_not_mem hWFP hmP hmneP
    have hPnotanc : ¬ AncIn b m P.index := by
      rintro ⟨q, hq, hmq, hqne, hqi⟩
      have hqroot : q ∈ allNodes root := allNodes_subset_of_mem hbroot q hq
      have hqP : q = P := index_inj_of_WF hWF hqroot hProot hqi
      have hPb : P = b := allNodes_antisymm (hqP ▸ hq) hbP
      rw [hPb] at hb
      exact absurd (count_lt_of_child hb) (lt_irrefl _)
    have hkey : P.index ∈ S ↔ P.index ∈ sel := by
      rw [hS]
      constructor
      · exact fun h => h.1
      · exact fun h => ⟨h, hPnotsub, hPnotanc⟩
    rw [uncheck_ancestors]
    by_cases hPS : P.index ∈ S
    · rw [if_pos hPS]
      have hndE : (S.erase P.index).Nodup := hnd.erase _
      have hSE : ∀ j, j ∈ S.erase P.index ↔
          j ∈ sel ∧ j ∉ subtreeIdxs m ∧ ¬ AncIn P m j := by
        intro j
        rw [hnd.mem_erase_iff, hS j]
        have hanc : AncIn P m j ↔ (AncIn b m j ∨ j = P.index) := by
          constructor
          · rintro ⟨q, hq, hmq, hqne, hqi⟩
            by_cases hqP : q = P
            · exact .inr (by rw [← hqi, hqP])
            · rcases child_step hq hqP with ⟨c, hcP, hqc⟩
              have hmc : m ∈ allNodes c := allNodes_subset_of_mem hqc m hmq
              have hcb : c = b := children_disj_node hWFP hcP hb
                (subtree_subset_of_mem m hmc _ (index_mem_subtreeIdxs m))
                (subtree_subset_of_mem m hmb _ (index_mem_subtreeIdxs m))
              exact .inl ⟨q, hcb ▸ hqc, hmq, hqne, hqi⟩
          · rintro (⟨q, hq, hmq, hqne, hqi⟩ | h1)
            · exact ⟨q, allNodes_subset_of_mem hbP q hq, hmq, hqne, hqi⟩
            · exact ⟨P, mem_allNodes_self P, hmP,
                fun h => hmneP h.symm, h1.symm⟩
        rw [hanc]
        tauto
      exact ih P (S.erase P.index) hP hmP hSE hndE
    · rw [if_neg hPS]
      have hPnotsel : P.index ∉ sel := fun h => hPS (hkey.mpr h)
      refine ⟨?_, hnd⟩
      intro j
      rw [hS j]
      constructor
      · rintro ⟨h1, h2, h3⟩
        refine ⟨h1, h2, ?_⟩
        rintro ⟨q, hqroot, hmq, hqne, hqi⟩
        apply h3
        rcases tri_of_WF hWF q hqroot b hbroot with ht | ht | ht
        · exact ⟨q, ht, hmq, hqne, hqi⟩
        · by_cases hqb : q = b
          · exact ⟨q, hqb ▸ mem_allNodes_self b, hmq, hqne, hqi⟩
          · exfalso
            have hqin := chain_complete hWF hchain q hqroot ht hqb
            rcases List.mem_cons.mp hqin with hq1 | hq2
            · apply hPnotsel
              have hPj : P.index = j := by rw [← hq1, hqi]
              rw [hPj]
              exact h1
            · have hPq : P ∈ allNodes q := chainOK_contains hP q hq2
              apply hPnotsel
              exact hInv.2.2.1 q hqroot (hqi.symm ▸ h1) P.index
                (index_mem_of_mem_allNodes hPq)
        · exfalso
          exact ht m.index
            (subtree_subset_of_mem m hmq _ (index_mem_subtreeIdxs m))
            (subtree_subset_of_mem m hmb _ (index_mem_subtreeIdxs m))
      · rintro ⟨h1, h2, h3⟩
        refine ⟨h1, h2, ?_⟩
        rintro ⟨q, hq, hmq, hqne, hqi⟩
        exact h3 ⟨q, allNodes_subset_of_mem hbroot q hq, hmq, hqne, hqi⟩

/-! ## Canonical description of one toggle -/

theorem mark_sel_canon {root : INode} (hWF : WF root) {sel : List Nat}
    (hInv : Inv root sel) {i : Nat} {m : INode} {ps : List INode}
    (hf : find_by_index root i = some m) (ha : anc_nodes root i = some ps)
    (hi : i ∉ sel) :
    (mark_index root true i sel).Nodup ∧
    ∀ j, j ∈ mark_index root true i sel ↔
      canonPred root (fun l => l ∈ sel ∨ l ∈ leafIdxs m) j := by
  obtain ⟨hmroot, hmidx⟩ := find_by_index_some hf
  have hival : i ∈ subtreeIdxs root := hmidx ▸ index_mem_of_mem_allNodes hmroot
  obtain ⟨m2, ps2, hf2, ha2, hmidx2, hch2⟩ := find_anc_some i hival
  rw [hf] at hf2
  rw [ha] at ha2
  injection hf2 with hf2
  injection ha2 with ha2
  subst hf2
  subst ha2
  have hunfold : mark_index root true i sel =
      check_ancestors ps (check_children m (sel ++ [i])) := by
    rw [mark_index, if_pos rfl, if_neg hi, hf, ha]
  have hmi : m.index ∉ sel := by rw [hmidx]; exact hi
  have hnd1 : (sel ++ [i]).Nodup := nodup_append_singleton hInv.1 hi
  obtain ⟨hnd0, hmem0⟩ := check_children_props (n := m) (sel ++ [i]) hnd1
  have hS0 : ∀ j, j ∈ check_children m (sel ++ [i]) ↔
      j ∈ sel ∨ j ∈ subtreeIdxs m := by
    intro j
    rw [hmem0 j, List.mem_append, List.mem_singleton, subtreeIdxs_eq m,
      List.mem_cons, hmidx]
    tauto
  obtain ⟨T, rem, hTroot, hmT, hsubT, hchar, hndF, hleafT, hchT, hstop⟩ :=
    sel_walk hWF hInv hmi ps m (check_children m (sel ++ [i])) hch2
      (mem_allNodes_self m) hS0 hnd0 (fun l hl => .inr hl)
  rw [hunfold]
  refine ⟨hndF, fun j => ?_⟩
  rw [hchar j]
  constructor
  · rintro (h1 | h1)
    · rcases (inv_canon hInv j).mp h1 with ⟨q, hq, hqi, hleafq⟩
      exact ⟨q, hq, hqi, fun l hl => .inl (hleafq l hl)⟩
    · rcases exists_node_of_mem_subtree j h1 with ⟨r, hr, hri⟩
      exact ⟨r, allNodes_subset_of_mem hTroot r hr, hri,
        fun l hl => hleafT l (leafIdxs_subset_of_mem r hr l hl)⟩
  · rintro ⟨q, hq, hqi, hleafq⟩
    rcases tri_of_WF hWF q hq T hTroot with ht | ht | ht
    · exact .inr (hqi ▸ index_mem_of_mem_allNodes ht)
    · by_cases hqT : q = T
      · exact .inr (hqi ▸ hqT ▸ index_mem_subtreeIdxs T)
      · exfalso
        rcases hstop with hrem | ⟨P, rem2, hrem, c, hcP, hcF⟩
        · rw [hrem] at hchT
          have hT := chainOK_nil_eq hchT
          refine hqT ?_
          rw [hT]
          exact allNodes_antisymm hq (hT ▸ ht)
        · rw [hrem] at hchT
          obtain ⟨hTP, hPrem⟩ := chainOK_cons_inv hchT
          have hqchain := chain_complete hWF hchT q hq ht hqT
          rw [← hrem] at hqchain
          rw [hrem] at hqchain
          have hPq : P ∈ allNodes q := by
            rcases List.mem_cons.mp hqchain with h2 | h2
            · exact h2 ▸ mem_allNodes_self P
            · exact chainOK_contains hPrem q h2
          have hProot : P ∈ allNodes root := (chainOK_mem_root hPrem).1
          have hWFP : WF P := WF_of_mem_allNodes hWF hProot
          by_cases hcT : c = T
          · exact hcF ((hchar c.index).mpr
              (.inr (hcT ▸ index_mem_subtreeIdxs c)))
          · have hcq : c ∈ allNodes q :=
              allNodes_subset_of_mem hPq c (child_mem_allNodes hcP)
            have hleafc : ∀ l ∈ leafIdxs c, l ∈ sel := by
              intro l hl
              rcases hleafq l (leafIdxs_subset_of_mem c hcq l hl) with h2 | h2
              · exact h2
              · exfalso
                refine hcT (children_disj_node hWFP hcP hTP
                  (leafIdxs_subset_subtreeIdxs l hl) ?_)
                exact subtree_subset_of_mem m hmT l
                  (leafIdxs_subset_subtreeIdxs l h2)
            have hcroot : c ∈ allNodes root :=
              allNodes_subset_of_mem hProot c (child_mem_allNodes hcP)
            exact hcF ((hchar c.index).mpr
              (.inl (canon_sel hInv c hcroot hleafc)))
    · refine .inl (hqi ▸ canon_sel hInv q hq ?_)
      intro l hl
      rcases hleafq l hl with h1 | h1
      · exact h1
      · exfalso
        refine ht l (leafIdxs_subset_subtreeIdxs l hl) ?_
        exact subtree_subset_of_mem m hmT l (leafIdxs_subset_subtreeIdxs l h1)

theorem mark_unsel_canon {root : INode} (hWF : WF root) {sel : List Nat}
    (hInv : Inv root sel) {i : Nat} {m : INode} {ps : List INode}
    (hf : find_by_index root i = some m) (ha : anc_nodes root i = some ps)
    (hi : i ∈ sel) :
    (mark_index root true i sel).Nodup ∧
    ∀ j, j ∈ mark_index root true i sel ↔
      canonPred root (fun l => l ∈ sel ∧ l ∉ leafIdxs m) j := by
  obtain ⟨hmroot, hmidx⟩ := find_by_index_some hf
  have hival : i ∈ subtreeIdxs root := hmidx ▸ index_mem_of_mem_allNodes hmroot
  obtain ⟨m2, ps2, hf2, ha2, hmidx2, hch2⟩ := find_anc_some i hival
  rw [hf] at hf2
  rw [ha] at ha2
  injection hf2 with hf2
  injection ha2 with ha2
  subst hf2
  subst ha2
  have hunfold : mark_index root true i sel =
      uncheck_ancestors ps (uncheck_children m (sel.erase i)) := by
    rw [mark_index, if_pos rfl, if_pos hi, hf, ha]
  have hnd1 : (sel.erase i).Nodup := hInv.1.erase i
  obtain ⟨hnd0, hmem0⟩ := uncheck_children_props (n := m) (sel.erase i) hnd1
  have hS0 : ∀ j, j ∈ uncheck_children m (sel.erase i) ↔
      j ∈ sel ∧ j ∉ subtreeIdxs m ∧ ¬ AncIn m m j := by
    intro j
    have hanc : ¬ AncIn m m j := by
      rintro ⟨q, hq, hmq, hqne, _⟩
      exact hqne (allNodes_antisymm hq hmq)
    rw [hmem0 j, hInv.1.mem_erase_iff, subtreeIdxs_eq m, List.mem_cons, hmidx]
    constructor
    · rintro ⟨⟨hji, hjsel⟩, hjc⟩
      refine ⟨hjsel, ?_, hanc⟩
      rintro (h | h)
      · exact hji h
      · exact hjc h
    · rintro ⟨hjsel, hjsub, _⟩
      push_neg at hjsub
      exact ⟨⟨hjsub.1, hjsel⟩, hjsub.2⟩
  obtain ⟨hchar, hndF⟩ :=
    unsel_walk hWF hInv ps m (uncheck_children m (sel.erase i)) hch2
      (mem_allNodes_self m) hS0 hnd0
  rw [hunfold]
  refine ⟨hndF, fun j => ?_⟩
  rw [hchar j]
  constructor
  · rintro ⟨h1, h2, h3⟩
    rcases exists_node_of_mem_subtree j (hInv.2.1 j h1) with ⟨q, hq, hqi⟩
    refine ⟨q, hq, hqi, ?_⟩
    intro l hl
    refine ⟨hInv.2.2.1 q hq (hqi.symm ▸ h1) l
      (leafIdxs_subset_subtreeIdxs l hl), ?_⟩
    intro hlm
    rcases tri_of_WF hWF q hq m hmroot with ht | ht | ht
    · exact h2 (hqi ▸ index_mem_of_mem_allNodes ht)
    · by_cases hqm : q = m
      · exact h2 (hqi ▸ hqm ▸ index_mem_subtreeIdxs m)
      · exact h3 ⟨q, hq, ht, hqm, hqi⟩
    · exact ht l (leafIdxs_subset_subtreeIdxs l hl)
        (leafIdxs_subset_subtreeIdxs l hlm)
  · rintro ⟨q, hq, hqi, hleafq⟩
    rcases tri_of_WF hWF q hq m hmroot with ht | ht | ht
    · exfalso
      rcases exists_mem_leafIdxs q with ⟨l, hl⟩
      exact (hleafq l hl).2 (leafIdxs_subset_of_mem q ht l hl)
    · exfalso
      rcases exists_mem_leafIdxs m with ⟨l, hl⟩
      exact (hleafq l (leafIdxs_subset_of_mem m ht l hl)).2 hl
    · refine ⟨hqi ▸ canon_sel hInv q hq (fun l hl => (hleafq l hl).1),
        ?_, ?_⟩
      · intro hjm
        exact ht j (hqi ▸ index_mem_subtreeIdxs q) hjm
      · rintro ⟨q2, hq2, hmq2, hq2ne, hq2i⟩
        have hq2q : q2 = q := index_inj_of_WF hWF hq2 hq (hq2i.trans hqi.symm)
        refine ht m.index ?_ (index_mem_subtreeIdxs m)
        exact subtree_subset_of_mem m (hq2q ▸ hmq2) _ (index_mem_subtreeIdxs m)

/-! ## Invariant preservation and reachability -/

theorem mark_index_inv {root : INode} (hWF : WF root) {sel : List Nat}
    (hInv : Inv root sel) {i : Nat} (hival : i ∈ subtreeIdxs root) :
    Inv root (mark_index root true i sel) := by
  obtain ⟨m, ps, hf, ha, hmidx, hch⟩ := find_anc_some i hival
  by_cases hi : i ∈ sel
  · obtain ⟨hnd, hchar⟩ := mark_unsel_canon hWF hInv hf ha hi
    exact canon_inv hWF hnd hchar
  · obtain ⟨hnd, hchar⟩ := mark_sel_canon hWF hInv hf ha hi
    exact canon_inv hWF hnd hchar

theorem inv_init (root : INode) : Inv root [] := by
  refine ⟨List.nodup_nil, by simp, by simp, ?_⟩
  intro m hm hcs hchild
  exfalso
  rcases List.exists_mem_of_ne_nil m.children hcs with ⟨c, hc⟩
  exact absurd (hchild c hc) (List.not_mem_nil _)

theorem reachable_inv {root : INode} (hWF : WF root) {sel : List Nat}
    (h : Reachable root sel) : Inv root sel := by
  induction h with
  | init => exact inv_init root
  | toggle i sel hival hr ih => exact mark_index_inv hWF ih hival

/-! ## Refinement of the upward walks against the spec wording -/

theorem walk_select_equiv : ∀ (ps : List INode) (S : List Nat)
    (Sf : Finset ℕ), (∀ j, j ∈ S ↔ j ∈ Sf) →
    ∀ j, j ∈ check_ancestors ps S ↔ j ∈ select_walk_spec ps Sf := by
  intro ps
  induction ps with
  | nil =>
    intro S Sf hS j
    rw [check_ancestors, select_walk_spec]
    exact hS j
  | cons p ps ih =>
    intro S Sf hS j
    rw [check_ancestors, select_walk_spec]
    have hcond : (0 < all_checked p.children S) ↔
        (∀ c ∈ p.children, c.index ∈ Sf) := by
      rw [all_checked_pos]
      constructor
      · exact fun h c hc => (hS _).mp (h c hc)
      · exact fun h c hc => (hS _).mpr (h c hc)
    by_cases hc : ∀ c ∈ p.children, c.index ∈ Sf
    · rw [if_pos (hcond.mpr hc), if_pos hc]
      refine ih _ _ (fun j2 => ?_) j
      rw [List.mem_append, List.mem_singleton, Finset.mem_insert, hS j2]
      tauto
    · rw [if_neg (fun h => hc (hcond.mp h)), if_neg hc]
      exact hS j

theorem walk_unselect_equiv : ∀ (ps : List INode) (S : List Nat)
    (Sf : Finset ℕ), S.Nodup → (∀ j, j ∈ S ↔ j ∈ Sf) →
    ∀ j, j ∈ uncheck_ancestors ps S ↔ j ∈ unselect_walk_spec ps Sf := by
  intro ps
  induction ps with
  | nil =>
    intro S Sf _ hS j
    rw [uncheck_ancestors, unselect_walk_spec]
    exact hS j
  | cons p ps ih =>
    intro S Sf hnd hS j
    rw [uncheck_ancestors, unselect_walk_spec]
    by_cases hc : p.index ∈ Sf
    · rw [if_pos ((hS _).mpr hc), if_pos hc]
      refine ih _ _ (hnd.erase _) (fun j2 => ?_) j
      rw [hnd.mem_erase_iff, Finset.mem_erase, hS j2]
    · rw [if_neg (fun h => hc ((hS _).mp h)), if_neg hc]
      exact hS j

/-! ## Helper facts for the claims -/

theorem Tree.count_pos (t : Tree) : 0 < Tree.count t := by
  cases t with
  | node nm cs => rw [Tree.count]; omega

/-- The name of the node carrying an index (empty when absent); used only
to state results about the shaped output. -/
def nameOf (root : INode) (s : Nat) : String :=
  ((find_by_index root s).map INode.name).getD ("")

theorem mapM_option_eq_map {α β : Type} (f : α → Option β) (g : α → β) :
    ∀ (l : List α), (∀ a ∈ l, f a = some (g a)) →
      l.mapM f = some (l.map g) := by
  intro l
  induction l with
  | nil => intro _; rfl
  | cons a l ih =>
    intro h
    rw [List.map_cons, List.mapM_cons, h a (List.mem_cons_self _ _),
      ih (fun b hb => h b (List.mem_cons_of_mem _ hb))]
    rfl

/-- The example tree of the spec scenarios: parent with two leaf
children, indexed 0, 1, 2. -/
def exTree : Tree := .node ("parent") [.node ("child1") [], .node ("child2") []]

def exRoot : INode := add_indices exTree

/-- A two-node tree: parent with a single leaf child, indexed 0, 1. -/
def exTree1 : Tree := .node ("parent") [.node ("child1") []]

def exRoot1 : INode := add_indices exTree1

/-! ## The claims -/

/-- C6: for every tree of N nodes the indexing pass assigns, in pre-order
depth-first order with children in their given order, exactly the indices
0 through N-1 (the pre-order index list is literally the range 0..N-1, so
the assignment is a bijection with the root receiving 0), and re-running
the indexing pass on the same tree shape yields the identical
assignment. -/
theorem C6_indexing_preorder_bijection (t : Tree) :
    subtreeIdxs (add_indices t) = List.range (Tree.count t) ∧
    (add_indices t).index = 0 ∧
    add_indices (strip (add_indices t)) = add_indices t := by
  refine ⟨?_, ?_, ?_⟩
  · rw [add_indices, subtreeIdxs_addIdx, List.range_eq_range']
  · cases t with
    | node nm cs => rw [add_indices, addIdx, INode.index]
  · simp only [add_indices, strip_addIdx]

/-- C7 as amended: construction (modelled by postInit on a pre-built
tree, other options valid) fails with a configuration error exactly when
the default cursor index is at least N, succeeds with the initial cursor
equal to the index whenever the index lies in the range 0..N-1, and also
succeeds, without any error, for every negative default index (the source
range check only rejects indices that are too large). -/
theorem C7_default_index_amended (t : Tree) (di : Int) :
    (0 ≤ di → di < (Tree.count t : Int) →
      postInit t di false 0 false false = .ok (add_indices t, di)) ∧
    ((Tree.count t : Int) ≤ di →
      ∃ e, postInit t di false 0 false false = .error e) ∧
    (di < 0 → postInit t di false 0 false false = .ok (add_indices t, di)) := by
  have hc := Tree.count_pos t
  have h1 : ¬ (Tree.count t = 0) := by omega
  refine ⟨?_, ?_, ?_⟩
  · intro h0 hN
    rw [postInit, if_neg h1, if_neg (by simp), if_neg (by omega),
      if_neg (by simp)]
  · intro hN
    refine ⟨("default_index should be less than the length of options"), ?_⟩
    rw [postInit, if_neg h1, if_neg (by simp), if_pos (by omega)]
  · intro hneg
    rw [postInit, if_neg h1, if_neg (by simp), if_neg (by omega),
      if_neg (by simp)]

theorem C7_amended_witness :
    postInit exTree 1 false 0 false false = .ok (add_indices exTree, 1) ∧
    (∃ e, postInit exTree 5 false 0 false false = .error e) ∧
    postInit exTree (-2) false 0 false false =
      .ok (add_indices exTree, -2) :=
  ⟨(C7_default_index_amended exTree 1).1 (by decide) (by decide),
   (C7_default_index_amended exTree 5).2.1 (by decide),
   (C7_default_index_amended exTree (-2)).2.2 (by decide)⟩

/-- C7 counterexample: a negative default cursor index lies outside
0..N-1, yet construction succeeds (and the initial cursor is the negative
index), so construction does not fail for every out-of-range default
index. -/
theorem C7_counterexample :
    postInit (Tree.node ("a") []) (-1) false 0 false false =
      .ok (add_indices (Tree.node ("a") []), -1) ∧
    ¬ (0 ≤ (-1 : Int)) :=
  ⟨rfl, by decide⟩

/-- C8: on a tree of N nodes, from every cursor c in 0..N-1, move_up
yields c-1 wrapping to N-1 at 0, move_down yields c+1 wrapping to 0 at
N-1, the two are mutually inverse, and both keep the cursor inside
0..N-1. -/
theorem C8_cursor_move_wraparound (t : Tree) (c : Int) (h0 : 0 ≤ c)
    (hN : c < (count_nodes (add_indices t) : Int)) :
    move_up (add_indices t) c =
      (if c = 0 then (count_nodes (add_indices t) : Int) - 1 else c - 1) ∧
    move_down (add_indices t) c =
      (if c = (count_nodes (add_indices t) : Int) - 1 then 0 else c + 1) ∧
    move_up (add_indices t) (move_down (add_indices t) c) = c ∧
    move_down (add_indices t) (move_up (add_indices t) c) = c ∧
    0 ≤ move_up (add_indices t) c ∧
    move_up (add_indices t) c < (count_nodes (add_indices t) : Int) ∧
    0 ≤ move_down (add_indices t) c ∧
    move_down (add_indices t) c < (count_nodes (add_indices t) : Int) := by
  have hpos := count_nodes_pos (add_indices t)
  simp only [move_up, move_down]
  split_ifs <;> omega

theorem C8_witness :
    (0 : Int) ≤ 0 ∧
    move_up exRoot (move_down exRoot 0) = 0 :=
  ⟨by decide,
   (C8_cursor_move_wraparound exTree 0 (by decide) (by decide)).2.2.1⟩

/-- C5: in every selection state reachable from the fresh picker by
cursor moves and toggles, whenever the index of a node is selected, the
indices of all nodes of its subtree (itself and every descendant) are
selected too. -/
theorem C5_selected_downward_closed (t : Tree) (sel : List Nat)
    (hreach : Reachable (add_indices t) sel) :
    ∀ m ∈ allNodes (add_indices t), m.index ∈ sel →
      ∀ j ∈ subtreeIdxs m, j ∈ sel :=
  (reachable_inv (WF_add_indices t) hreach).2.2.1

theorem C5_witness :
    exRoot.index ∈ mark_index exRoot true 0 [] ∧
    2 ∈ mark_index exRoot true 0 [] :=
  ⟨by decide,
   C5_selected_downward_closed exTree (mark_index exRoot true 0 [])
     (Reachable.toggle 0 [] (by decide) Reachable.init) exRoot
     (mem_allNodes_self exRoot) (by decide) 2 (by decide)⟩

/-- C10: in every reachable selection state the internal selected list
holds no duplicate index, although the ancestor walk of cascade-select
appends a parent index without a membership test. -/
theorem C10_no_duplicate_selection (t : Tree) (sel : List Nat)
    (hreach : Reachable (add_indices t) sel) : sel.Nodup :=
  (reachable_inv (WF_add_indices t) hreach).1

theorem C10_witness : (mark_index exRoot true 0 []).Nodup :=
  C10_no_duplicate_selection exTree (mark_index exRoot true 0 [])
    (Reachable.toggle 0 [] (by decide) Reachable.init)

/-- C1: on every indexed tree, in every reachable multiselect state,
toggling an unselected node X yields exactly the selected set described
by the spec wording of cascade-select: X and every descendant of X are
added, then the walk upward from X adds each ancestor all of whose direct
children are then selected, continuing from it, and stops at the first
ancestor with an unselected direct child or after the root. -/
theorem C1_cascade_select_refines_spec (t : Tree) (sel : List Nat)
    (i : Nat) (hreach : Reachable (add_indices t) sel)
    (hival : i ∈ subtreeIdxs (add_indices t)) (hi : i ∉ sel) :
    ∀ j, j ∈ mark_index (add_indices t) true i sel ↔
      j ∈ cascade_select (add_indices t) i sel.toFinset := by
  have hWF := WF_add_indices t
  have hInv := reachable_inv hWF hreach
  obtain ⟨m, ps, hf, ha, hmidx, hch⟩ := find_anc_some i hival
  intro j
  have hunfold : mark_index (add_indices t) true i sel =
      check_ancestors ps (check_children m (sel ++ [i])) := by
    rw [mark_index, if_pos rfl, if_neg hi, hf, ha]
  have hspec : cascade_select (add_indices t) i sel.toFinset =
      select_walk_spec ps
        (sel.toFinset ∪ (subtreeIdxs m).toFinset) := by
    rw [cascade_select, hf, ha]
  rw [hunfold, hspec]
  have hnd1 : (sel ++ [i]).Nodup := nodup_append_singleton hInv.1 hi
  obtain ⟨hnd0, hmem0⟩ := check_children_props (n := m) (sel ++ [i]) hnd1
  refine walk_select_equiv ps _ _ (fun j2 => ?_) j
  rw [hmem0 j2, Finset.mem_union, List.mem_toFinset, List.mem_toFinset,
    List.mem_append, List.mem_singleton, subtreeIdxs_eq m, List.mem_cons,
    hmidx]
  tauto

theorem C1_witness :
    (0 ∉ ([] : List Nat)) ∧
    (1 ∈ mark_index exRoot true 0 [] ↔
      1 ∈ cascade_select exRoot 0 ([] : List Nat).toFinset) :=
  ⟨by decide,
   C1_cascade_select_refines_spec exTree [] 0 Reachable.init (by decide)
     (by decide) 1⟩

/-- C2: on every indexed tree, in every reachable multiselect state,
toggling a selected node X yields exactly the selected set described by
the spec wording of cascade-unselect: X and every descendant of X are
removed, then the walk upward from X removes each ancestor while it is
present and stops immediately at the first ancestor that is absent,
touching nothing above it. -/
theorem C2_cascade_unselect_refines_spec (t : Tree) (sel : List Nat)
    (i : Nat) (hreach : Reachable (add_indices t) sel)
    (hival : i ∈ subtreeIdxs (add_indices t)) (hi : i ∈ sel) :
    ∀ j, j ∈ mark_index (add_indices t) true i sel ↔
      j ∈ cascade_unselect (add_indices t) i sel.toFinset := by
  have hWF := WF_add_indices t
  have hInv := reachable_inv hWF hreach
  obtain ⟨m, ps, hf, ha, hmidx, hch⟩ := find_anc_some i hival
  intro j
  have hunfold : mark_index (add_indices t) true i sel =
      uncheck_ancestors ps (uncheck_children m (sel.erase i)) := by
    rw [mark_index, if_pos rfl, if_pos hi, hf, ha]
  have hspec : cascade_unselect (add_indices t) i sel.toFinset =
      unselect_walk_spec ps
        (sel.toFinset \ (subtreeIdxs m).toFinset) := by
    rw [cascade_unselect, hf, ha]
  rw [hunfold, hspec]
  have hnd1 : (sel.erase i).Nodup := hInv.1.erase i
  obtain ⟨hnd0, hmem0⟩ := uncheck_children_props (n := m) (sel.erase i) hnd1
  refine walk_unselect_equiv ps _ _ hnd0 (fun j2 => ?_) j
  rw [hmem0 j2, hInv.1.mem_erase_iff, Finset.mem_sdiff, List.mem_toFinset,
    List.mem_toFinset, subtreeIdxs_eq m, List.mem_cons, hmidx]
  tauto

theorem C2_witness :
    (1 ∈ mark_index exRoot true 1 []) ∧
    (1 ∈ mark_index exRoot true 1 (mark_index exRoot true 1 []) ↔
      1 ∈ cascade_unselect exRoot 1 (mark_index exRoot true 1 []).toFinset) :=
  ⟨by decide,
   C2_cascade_unselect_refines_spec exTree (mark_index exRoot true 1 []) 1
     (Reachable.toggle 1 [] (by decide) Reachable.init) (by decide)
     (by decide) 1⟩

/-- C3 counterexample: from the reachable state in which only the leaf
child1 (index 1) is selected, toggling the root (index 0) twice empties
the selection, so the membership of index 1, a descendant of the toggled
node, is changed by the double toggle and the selected set is not
restored. -/
theorem C3_counterexample :
    Reachable exRoot (mark_index exRoot true 1 []) ∧
    1 ∈ mark_index exRoot true 1 [] ∧
    1 ∉ mark_index exRoot true 0
      (mark_index exRoot true 0 (mark_index exRoot true 1 [])) :=
  ⟨Reachable.toggle 1 [] (by decide) Reachable.init, by decide, by decide⟩

/-- C3 as amended: in every reachable multiselect state, toggling node i
twice leaves the membership of every index in the selected set unchanged,
provided i was selected before the first toggle, or no strict descendant
of i was selected before the first toggle.  (Without the proviso the
second toggle also removes the descendants of i that were selected before
the first toggle, as the counterexample shows.) -/
theorem C3_toggle_twice_amended (t : Tree) (sel : List Nat) (i : Nat)
    (hreach : Reachable (add_indices t) sel)
    (hival : i ∈ subtreeIdxs (add_indices t))
    (hyp : i ∈ sel ∨ ∀ m, find_by_index (add_indices t) i = some m →
      ∀ d ∈ subtreeIdxsList m.children, d ∉ sel) :
    ∀ j, j ∈ mark_index (add_indices t) true i
        (mark_index (add_indices t) true i sel) ↔ j ∈ sel := by
  have hWF := WF_add_indices t
  have hInv := reachable_inv hWF hreach
  obtain ⟨m, ps, hf, ha, hmidx, hch⟩ := find_anc_some i hival
  obtain ⟨hmroot, _⟩ := find_by_index_some hf
  intro j
  by_cases hi : i ∈ sel
  · obtain ⟨hnd1, hchar1⟩ := mark_unsel_canon hWF hInv hf ha hi
    have hInv1 := canon_inv hWF hnd1 hchar1
    have hiF1 : i ∉ mark_index (add_indices t) true i sel := by
      intro hmem
      rcases (hchar1 i).mp hmem with ⟨q, hq, hqi, hleafq⟩
      have hqm : q = m := index_inj_of_WF hWF hq hmroot (hqi.trans hmidx.symm)
      rcases exists_mem_leafIdxs m with ⟨l, hl⟩
      exact (hleafq l (hqm ▸ hl)).2 hl
    obtain ⟨hnd2, hchar2⟩ := mark_sel_canon hWF hInv1 hf ha hiF1
    rw [hchar2 j]
    have hmsel : m.index ∈ sel := by rw [hmidx]; exact hi
    have hpoint : ∀ l ∈ leafIdxs (add_indices t),
        ((l ∈ mark_index (add_indices t) true i sel ∨ l ∈ leafIdxs m) ↔
          l ∈ sel) := by
      intro l hl
      have hlF1 : l ∈ mark_index (add_indices t) true i sel ↔
          (l ∈ sel ∧ l ∉ leafIdxs m) := by
        rw [hchar1 l]
        exact canon_leaf hWF l hl
      have hlm : l ∈ leafIdxs m → l ∈ sel := fun h =>
        hInv.2.2.1 m hmroot hmsel l (leafIdxs_subset_subtreeIdxs l h)
      rw [hlF1]
      tauto
    rw [canon_mono hpoint j]
    exact (inv_canon hInv j).symm
  · have hnodesc : ∀ d ∈ subtreeIdxsList m.children, d ∉ sel := by
      rcases hyp with h | h
      · exact absurd h hi
      · exact h m hf
    have hleafm : ∀ l ∈ leafIdxs m, l ∉ sel := by
      intro l hl
      have hsub := leafIdxs_subset_subtreeIdxs l hl
      rw [subtreeIdxs_eq m, List.mem_cons] at hsub
      rcases hsub with h | h
      · rw [h, hmidx]; exact hi
      · exact hnodesc l h
    obtain ⟨hnd1, hchar1⟩ := mark_sel_canon hWF hInv hf ha hi
    have hInv1 := canon_inv hWF hnd1 hchar1
    have hiF1 : i ∈ mark_index (add_indices t) true i sel :=
      (hchar1 i).mpr ⟨m, hmroot, hmidx, fun l hl => .inr hl⟩
    obtain ⟨hnd2, hchar2⟩ := mark_unsel_canon hWF hInv1 hf ha hiF1
    rw [hchar2 j]
    have hpoint : ∀ l ∈ leafIdxs (add_indices t),
        ((l ∈ mark_index (add_indices t) true i sel ∧ l ∉ leafIdxs m) ↔
          l ∈ sel) := by
      intro l hl
      have hlF1 : l ∈ mark_index (add_indices t) true i sel ↔
          (l ∈ sel ∨ l ∈ leafIdxs m) := by
        rw [hchar1 l]
        exact canon_leaf hWF l hl
      rw [hlF1]
      constructor
      · rintro ⟨h1 | h1, h2⟩
        · exact h1
        · exact absurd h1 h2
      · intro h1
        exact ⟨.inl h1, fun h2 => hleafm l h2 h1⟩
    rw [canon_mono hpoint j]
    exact (inv_canon hInv j).symm

theorem C3_amended_witness :
    (0 ∈ subtreeIdxs exRoot) ∧
    (0 ∈ mark_index exRoot true 0 (mark_index exRoot true 0 []) ↔
      0 ∈ ([] : List Nat)) :=
  ⟨by decide,
   C3_toggle_twice_amended exTree [] 0 Reachable.init (by decide)
     (.inr (fun m hm d hd => List.not_mem_nil d)) 0⟩

/-- C4: the four output modes are not always consistent projections of
the (node, index) result.  On the two-node tree with everything selected,
in multiselect leaves-only shaping, the (name, index) mode yields the
name tuple list, but the name-only mode returns raw node objects instead
of names: get_selected_noindex ignores the name-only flag in its
multiselect leaves-only branch, contradicting the documented meaning of
OutputMode.nameonly. -/
theorem C4_output_modes_divergence :
    get_selected exRoot1 (mark_index exRoot1 true 1 []) 0 true true false
      OutputMode.nameindex = some (.many [.onameIdx ("child1") 1]) ∧
    get_selected exRoot1 (mark_index exRoot1 true 1 []) 0 true true false
      OutputMode.nameonly =
      some (.many [.onode (INode.node ("child1") 1 [])]) ∧
    OutItem.onode (INode.node ("child1") 1 []) ≠ OutItem.oname ("child1") :=
  ⟨rfl, rfl, fun h => OutItem.noConfusion h⟩

/-- C9: in multiselect without leaves-only, get_selected with the
(name, index) mode returns one entry per selected index in the order of
the internal selected list (the order the indices were added), and on the
parent, child1, child2 scenario toggling the root yields exactly
parent 0, child1 1, child2 2 in that order. -/
theorem C9_multiselect_output_order (t : Tree) (sel : List Nat)
    (cursor : Nat)
    (hval : ∀ s ∈ sel, s ∈ subtreeIdxs (add_indices t)) :
    get_selected (add_indices t) sel cursor true false false
      OutputMode.nameindex =
      some (.many (sel.map (fun s =>
        OutItem.onameIdx (nameOf (add_indices t) s) s))) ∧
    get_selected exRoot (mark_index exRoot true 0 []) 0 true false false
      OutputMode.nameindex =
      some (.many [.onameIdx ("parent") 0, .onameIdx ("child1") 1,
        .onameIdx ("child2") 2]) := by
  constructor
  · rw [get_selected, if_pos (.inr rfl), get_selected_withindex]
    rw [if_pos rfl, if_neg (by simp)]
    rw [mapM_option_eq_map _
      (fun s => OutItem.onameIdx (nameOf (add_indices t) s) s) sel ?_]
    · rfl
    · intro s hs
      obtain ⟨ms, ps, hfs, _, _, _⟩ := find_anc_some s (hval s hs)
      have hname : nameOf (add_indices t) s = ms.name := by
        simp [nameOf, hfs]
      simp [hfs, hname, OutputMode.toNat]
  · rfl

theorem C9_witness :
    get_selected exRoot [1] 0 true false false OutputMode.nameindex =
      some (.many ([1].map (fun s =>
        OutItem.onameIdx (nameOf exRoot s) s))) :=
  (C9_multiselect_output_order exTree [1] 0 (by decide)).1

end Pickpack
